import Mathlib

/-!
# Verification of the SMCTC particle sampler (`src/include/sampler.hh`)

This file gives a shallow embedding, in Lean 4, of the core of the
`smc::sampler` class from `sampler.hh`, and proves (or refutes) the
specification claims about it.

Modelling conventions:

* C++ `double`/`long double` arithmetic is modelled by exact rational
  arithmetic (`ℚ`).  The value `-∞` (a legal log-weight) is modelled by
  `⊥` in `WithBot ℚ`.  Where the behaviour of IEEE special values
  (`±∞`, `NaN`) is itself at issue, a dedicated model `Xd` of IEEE
  extended values is used (see below).
* The transcendental functions `exp`/`log` used by `GetESS` are kept
  abstract: the embedding is parameterised by functions `qexp qlog : ℚ → ℚ`
  (and the generic `GetESS` is stated over an arbitrary linear ordered
  field, so that theorems about the exp/log identities can be
  instantiated at `ℝ` with `Real.exp`/`Real.log`).
* The GSL random number generator (`rng.hh`, not part of this source
  tree) is modelled from the spec: `Uniform(0, 1/N)` draws become an
  arbitrary stream `unif : ℕ → ℚ` of values in `[0, 1/N)`, and
  `Multinomial(trials, k, probs, counts)` becomes an arbitrary function
  constrained by the spec contract `Σ counts = trials`.
* The client-supplied moveset (`moveset.hh`, an external interface per
  the spec) is modelled by arbitrary functions `DoInit`, `DoMove`,
  `DoMCMC`; the extra `ℕ` arguments stand for the call context
  (target time, batch number, particle slot) through which the RNG
  state would flow.
* The history stack (`history.hh`, not under `src/`) is modelled from
  the spec, §3 and §4.4: a snapshot records the population size, a full
  copy of the particles, the acceptance count and the resample flag;
  `Push` appends, `Pop` removes the top (on an empty stack it is a
  sentinel no-op rather than an error).
-/

namespace Smctc

/-- Specifiers for the resampling algorithms (`ResampleType`, sampler.hh:53). -/
inductive ResampleType where
  | multinomial
  | residual
  | stratified
  | systematic
  | fribblebits
deriving DecidableEq, Repr

/-- Storage modes for the history of the particle system (`HistoryType`, sampler.hh:61). -/
inductive HistoryType where
  | none
  | ram
deriving DecidableEq, Repr

/-- The failure kinds raised by the core (smc-exception.hh is not under `src/`;
modelled from the spec §7 error taxonomy). -/
inductive SmcErr where
  | missingHistory
deriving DecidableEq, Repr

/-- A particle: a state-space value paired with a log-weight in ℝ ∪ {−∞}
(particle.hh is an external leaf; the spec §3 data model is value + log-weight,
with `−∞` permitted and modelled by `⊥`). -/
structure Particle (V : Type) where
  val : V
  lw : WithBot ℚ
deriving DecidableEq, Repr

instance (V : Type) [Inhabited V] : Inhabited (Particle V) := ⟨⟨default, 0⟩⟩

/-- Modelled from the spec: a history snapshot (history.hh is not under `src/`).
Spec §3: "A snapshot records: the population size at that generation, a full
copy of the particles, the MCMC acceptance count, and a bitset of flags
(currently: one bit recording whether a resample occurred)". -/
structure Snapshot (V : Type) where
  N : ℕ
  particles : List (Particle V)
  nAccepted : ℕ
  flag : Bool
deriving DecidableEq, Repr

/-- The sampler state: the data members of `smc::sampler` (sampler.hh:80-113).
The `rng` member itself is externalised into `SmcEnv`. -/
structure SamplerState (V : Type) where
  N : ℕ
  T : ℕ
  rtResampleMode : ResampleType
  dResampleThreshold : ℚ
  dRSWeights : List ℚ
  uRSCount : List ℕ
  uRSIndices : List ℕ
  particles : List (Particle V)
  nAccepted : ℕ
  nResampled : ℕ
  htHistoryMode : HistoryType
  history : List (Snapshot V)
deriving DecidableEq, Repr

/-- Modelled from the spec: the external collaborators of the sampler.
`DoInit`/`DoMove`/`DoMCMC` are the client moveset (moveset.hh; spec §4.3:
external interfaces), `qexp`/`qlog` stand for the libm `exp`/`log` on finite
doubles, `unif` is the stream of `Uniform(0, 1/N)` draws, and `mnom` is the
GSL multinomial sampler (rng.hh; spec §4.1 contract: `sum(counts) = trials`).
The `ℕ` arguments of the moveset functions are the call context (time, pass,
slot) through which randomness would flow. -/
structure SmcEnv (V : Type) where
  DoInit : ℕ → Particle V
  DoMove : ℕ → ℕ → ℕ → Particle V → Particle V
  DoMCMC : ℕ → ℕ → ℕ → Particle V → Particle V × Bool
  qexp : ℚ → ℚ
  qlog : ℚ → ℚ
  unif : ℕ → ℚ
  mnom : ℕ → List ℚ → List ℕ

/-! ## Log-weight arithmetic

`double` arithmetic on log-weights, restricted to ℝ ∪ {−∞} (`⊥` is `−∞`).
These operations agree with IEEE semantics whenever no `NaN` or `+∞` would
arise (`⊥ - ⊥` and `-⊥` are clamped to `⊥`; the IEEE `NaN` outcomes of those
two corner cases are treated separately by the `Xd` model below). -/

/-- `GetWeight()` (particle.hh): `exp` of the log-weight, with `exp(−∞) = 0`. -/
def expW (fexp : ℚ → ℚ) (w : WithBot ℚ) : ℚ :=
  w.recBotCoe 0 fexp

/-- `w - m` on log-weights (the subtract-max normalisation, sampler.hh:641). -/
def wsub (w m : WithBot ℚ) : WithBot ℚ :=
  w.recBotCoe ⊥ (fun a => m.recBotCoe ⊥ (fun b => ((a - b : ℚ) : WithBot ℚ)))

/-- `AddToLogWeight(δ)` (particle.hh): `w + δ` with `−∞` absorbing. -/
def addW (w δ : WithBot ℚ) : WithBot ℚ :=
  w.recBotCoe ⊥ (fun a => δ.recBotCoe ⊥ (fun d => ((a + d : ℚ) : WithBot ℚ)))

/-- Unary negation of a log-weight (`-dLocalMaxWeight` etc.); `-⊥` is clamped
to `⊥` (the faithful IEEE value `+∞` never arises on the paths proved here). -/
def negW (w : WithBot ℚ) : WithBot ℚ :=
  w.recBotCoe ⊥ (fun a => ((-a : ℚ) : WithBot ℚ))

/-- `std::max` on log-weights: `(a < b) ? b : a`. -/
def wmax (a b : WithBot ℚ) : WithBot ℚ :=
  if a < b then b else a

/-- The maximum log-weight of a population, folded from `−∞`
(sampler.hh:637-639 and 551-553). -/
def maxLw {V : Type} (ps : List (Particle V)) : WithBot ℚ :=
  ps.foldl (fun acc p => wmax acc p.lw) ⊥

/-! ## GetESS (sampler.hh:289-302)

`GetESS` is embedded generically over a linear ordered field `F` together
with abstract `fexp fglog : F → F`, so that the exp/log identities can be
proved from hypotheses that hold for `Real.exp`/`Real.log`.  The sampler
driver instantiates `F := ℚ` with the abstract `qexp`/`qlog` of its
environment. -/

/-- `expl` of a log-weight over `F`: `⊥` (i.e. `−∞`) maps to `0`. -/
def expWF {F : Type} [LinearOrderedField F] (fexp : F → F) (w : WithBot F) : F :=
  w.recBotCoe 0 fexp

/-- `2.0 * w` on a log-weight (`expl(2.0 * GetLogWeight())`, sampler.hh:299). -/
def wdouble {F : Type} [LinearOrderedField F] (w : WithBot F) : WithBot F :=
  w.recBotCoe ⊥ (fun a => ((2 * a : F) : WithBot F))

/-- `sum` of sampler.hh:295-296: `Σ_i expl(w_i)`. -/
def wSum {F : Type} [LinearOrderedField F] (fexp : F → F) (ws : List (WithBot F)) : F :=
  (ws.map (expWF fexp)).sum

/-- `sumsq` of sampler.hh:298-299: `Σ_i expl(2 w_i)`. -/
def wSumSq {F : Type} [LinearOrderedField F] (fexp : F → F) (ws : List (WithBot F)) : F :=
  (ws.map (fun w => expWF fexp (wdouble w))).sum

/-- `GetESS` (sampler.hh:289-302): `expl(-log(sumsq) + 2 * log(sum))`. -/
def GetESS {F : Type} [LinearOrderedField F] (fexp flog : F → F)
    (ws : List (WithBot F)) : F :=
  fexp (-(flog (wSumSq fexp ws)) + 2 * flog (wSum fexp ws))

/-- `GetESS` applied to a particle population with the environment's
`qexp`/`qlog` (as in sampler.hh:646 etc.). -/
def essOf {V : Type} (env : SmcEnv V) (ps : List (Particle V)) : ℚ :=
  GetESS env.qexp env.qlog (ps.map (fun p => p.lw))

/-! ## Child-count generation: the stratified/systematic loop
(sampler.hh:739-770 and 772-798)

The C++ loop keeps a child cursor `j`, a parent cursor `k`, the current
uniform draw `dRand` and the running cumulative normalised weight
`dWeightCumulative`.  We model it as a small-step machine: each step either
accepts a child for parent `k` (`uRSCount[k]++; j++`, redrawing the uniform
in stratified mode) or advances `k` and accumulates the next weight.  In the
source, when `j` reaches `N` inside the inner `while`, the outer loop still
executes one final `k++; dWeightCumulative += ...` before its guard fails;
that trailing step does not touch `uRSCount`, so the model stops as soon as
`j = N`.  The uniform stream is indexed by `t`; systematic resampling
(`redraw = false`) never advances `t`, which models its single shared draw. -/

/-- State of the stratified/systematic counting loop. -/
structure StratState where
  j : ℕ
  k : ℕ
  t : ℕ
  counts : List ℕ
  cum : ℚ
deriving DecidableEq, Repr

/-- One-step-at-a-time embedding of the counting loop of
`Resample` for `SMC_RESAMPLE_STRATIFIED` / `SMC_RESAMPLE_SYSTEMATIC`
(sampler.hh:756-768, 782-795).  `fuel` bounds the number of small steps;
`2 * n` steps always suffice (proved below). -/
def stratLoop (ws : List ℚ) (W : ℚ) (n : ℕ) (us : ℕ → ℚ) (redraw : Bool) :
    ℕ → StratState → StratState
  | 0, s => s
  | fuel + 1, s =>
    if s.j < n then
      if s.cum - us s.t > (s.j : ℚ) / (n : ℚ) then
        stratLoop ws W n us redraw fuel
          { s with
            j := s.j + 1
            t := if redraw then s.t + 1 else s.t
            counts := s.counts.set s.k (s.counts.getD s.k 0 + 1) }
      else
        stratLoop ws W n us redraw fuel
          { s with k := s.k + 1, cum := s.cum + ws.getD (s.k + 1) 0 / W }
    else s

/-- Child counts for stratified (`redraw = true`) or systematic
(`redraw = false`) resampling: `uRSCount` is cleared to zeros, the first
uniform is drawn, and `dWeightCumulative` starts at `exp(w_0)/W`
(sampler.hh:751-758, 780-786). -/
def stratCounts (ws : List ℚ) (n : ℕ) (us : ℕ → ℚ) (redraw : Bool) : List ℕ :=
  let W := ws.sum
  (stratLoop ws W n us redraw (2 * n)
    { j := 0, k := 0, t := 0, counts := List.replicate n 0, cum := ws.getD 0 0 / W }).counts

/-! ## Child-count generation: residual (sampler.hh:716-736) -/

/-- The deterministic floor allocations of residual resampling:
`uRSIndices[i] = unsigned(floor(N * w_i / W))` (sampler.hh:727-728). -/
def residualFloors (ws : List ℚ) (n : ℕ) : List ℕ :=
  ws.map (fun w => (⌊(n : ℚ) * w / ws.sum⌋).toNat)

/-- The residual weights `N * w_i / W - floor(N * w_i / W)` (sampler.hh:729). -/
def residualRemainders (ws : List ℚ) (n : ℕ) : List ℚ :=
  ws.map (fun w => (n : ℚ) * w / ws.sum - ((⌊(n : ℚ) * w / ws.sum⌋).toNat : ℚ))

/-- `uMultinomialCount`: the number of children left for the multinomial
draw after the floor allocations (sampler.hh:725-730). -/
def residualTrials (ws : List ℚ) (n : ℕ) : ℕ :=
  n - (residualFloors ws n).sum

/-! ## Resample: child counts for each mode (the switch of sampler.hh:707-799) -/

/-- The child-count array `uRSCount` produced by `Resample`'s mode switch
(sampler.hh:707-799).  `mnom` is the (spec-modelled) GSL multinomial draw,
`us` the stream of `Uniform(0, 1/N)` draws.  `SMC_RESAMPLE_FRIBBLEBITS`
falls into the `default:` label which shares the stratified case. -/
def resampleCounts (mode : ResampleType) (ws : List ℚ) (n : ℕ)
    (mnom : ℕ → List ℚ → List ℕ) (us : ℕ → ℚ) : List ℕ :=
  match mode with
  | ResampleType.multinomial => mnom n ws
  | ResampleType.residual =>
      (mnom (residualTrials ws n) (residualRemainders ws n)).zipWith (· + ·)
        (residualFloors ws n)
  | ResampleType.systematic => stratCounts ws n us false
  | _ => stratCounts ws n us true

/-! ## Count → index flattening (sampler.hh:804-813)

```
for (unsigned int i = 0, j = 0; i < N; ++i) {
  if (uRSCount[i] > 0) {
    uRSIndices[i] = i;
    while (uRSCount[i] > 1) {
      while (uRSCount[j] > 0) ++j;   // find next free spot
      uRSIndices[j++] = i;           // assign index
      --uRSCount[i];                 // decrement remaining offspring
    }
  }
}
```
-/

/-- The free-slot scan `while (uRSCount[j] > 0) ++j` (sampler.hh:808).
Returns `c.length` if no free slot remains (unreachable when `Σ c = N`). -/
def findFree (c : List ℕ) (j : ℕ) : ℕ :=
  if h : j < c.length then
    if c.getD j 0 = 0 then j else findFree c (j + 1)
  else j
termination_by c.length - j
decreasing_by omega

/-- The surplus-distribution loop `while (uRSCount[i] > 1) { ... }`
(sampler.hh:807-811): find the next free slot, record `uRSIndices[j] = i`,
advance `j` past it, decrement `uRSCount[i]`.  Returns the updated counts,
the updated index array and the new free-slot cursor. -/
def surplusLoop (c idx : List ℕ) (i j : ℕ) : List ℕ × List ℕ × ℕ :=
  if h : 1 < c.getD i 0 then
    let j' := findFree c j
    surplusLoop (c.set i (c.getD i 0 - 1)) (idx.set j' i) i (j' + 1)
  else (c, idx, j)
termination_by c.getD i 0
decreasing_by
  have hi : i < c.length := by
    by_contra hlen
    push_neg at hlen
    have h0 : c.getD i 0 = 0 := by
      simp [List.getD_eq_getElem?_getD, List.getElem?_eq_none hlen]
    omega
  have hs : (c.set i (c.getD i 0 - 1)).getD i 0 = c.getD i 0 - 1 := by
    simp [List.getD_eq_getElem?_getD, List.getElem?_set_self hi]
  omega

/-- The outer flattening loop `for (i = 0, j = 0; i < N; ++i)`
(sampler.hh:804-813).  `n` is the population size `N` (the loop bound). -/
def flattenLoop (n : ℕ) (c idx : List ℕ) (i j : ℕ) : List ℕ × List ℕ × ℕ :=
  if i < n then
    if 0 < c.getD i 0 then
      let r := surplusLoop c (idx.set i i) i j
      flattenLoop n r.1 r.2.1 (i + 1) r.2.2
    else
      flattenLoop n c idx (i + 1) j
  else (c, idx, j)
termination_by n - i
decreasing_by all_goals omega

/-- The complete count→index flattening: `uRSIndices = π` computed from the
child counts `c` over the pre-existing workspace contents `idx0`
(sampler.hh:804-813).  Returns the pair (final counts, `π`). -/
def flattenCounts (n : ℕ) (c idx0 : List ℕ) : List ℕ × List ℕ :=
  let r := flattenLoop n c idx0 0 0
  (r.1, r.2.1)

/-! ## SampleSystematic / SampleStratified (sampler.hh:419-469)

The public index-sampling functions used by `ResampleFribble` and the
variable-population iteration.  Loop shape (sampler.hh:438-451):

```
for (size_t i = 0, j = 0; i < size && j < M; ++i) {
  dWeightCumulative += exp(w_i) / dWeightSum;
  while (dWeightCumulative > (j/M + dRand) && j < M) { ++uCount[i]; ++j; redraw? }
}
```
-/

/-- The inner acceptance loop of `SampleSystematic` (sampler.hh:440-450):
accept children for parent `i` while the cumulative weight exceeds
`j/M + dRand`.  Returns the new `j`, the new uniform-stream position and the
updated counts. -/
def sampleInner (m : ℕ) (us : ℕ → ℚ) (redraw : Bool) (cum : ℚ) (i : ℕ) :
    ℕ → ℕ → List ℕ → ℕ × ℕ × List ℕ
  | j, t, counts =>
    if h : j < m then
      if cum > (j : ℚ) / (m : ℚ) + us t then
        sampleInner m us redraw cum i (j + 1) (if redraw then t + 1 else t)
          (counts.set i (counts.getD i 0 + 1))
      else (j, t, counts)
    else (j, t, counts)
termination_by j => m - j
decreasing_by omega

/-- The outer loop of `SampleSystematic` (sampler.hh:438-451). -/
def sampleOuter (ws : List ℚ) (w : ℚ) (m : ℕ) (us : ℕ → ℚ) (redraw : Bool) :
    ℕ → ℕ → ℕ → ℚ → List ℕ → List ℕ
  | i, j, t, cum, counts =>
    if h : i < ws.length ∧ j < m then
      let cum' := cum + ws.getD i 0 / w
      let r := sampleInner m us redraw cum' i j t counts
      sampleOuter ws w m us redraw (i + 1) r.1 r.2.1 cum' r.2.2
    else counts
termination_by i => ws.length - i
decreasing_by omega

/-- Transformation of sample counts into parent indices
(sampler.hh:453-460): `uIndices` is a zero-initialised vector of length `M`
whose first `Σ counts` entries are filled with each index `i` repeated
`counts[i]` times. -/
def countsToIndices (counts : List ℕ) (m : ℕ) : List ℕ :=
  ((counts.mapIdx (fun i c => List.replicate c i)).flatten ++ List.replicate m 0).take m

/-- `SampleSystematic(M, bStratified)` (sampler.hh:419-463) over the weight
values `ws` (the `exp`ed log-weights of the current population): child counts
by the (shared) stratified/systematic walk, then flattened to parent
indices. -/
def SampleSystematic (ws : List ℚ) (m : ℕ) (us : ℕ → ℚ) (bStratified : Bool) :
    List ℕ :=
  let w := ws.sum
  countsToIndices (sampleOuter ws w m us bStratified 0 0 0 0 (List.replicate ws.length 0)) m

/-- `SampleStratified(M)` (sampler.hh:466-469). -/
def SampleStratified (ws : List ℚ) (m : ℕ) (us : ℕ → ℚ) : List ℕ :=
  SampleSystematic ws m us true

/-! ## Resample: in-place replication (sampler.hh:819-825) -/

/-- List lookup with an explicit fallback particle (vector indexing;
out-of-range access is UB in the source and never reachable under the
invariants proved here). -/
def getP {V : Type} [Inhabited V] (ps : List (Particle V)) (i : ℕ) : Particle V :=
  ps.getD i default

/-- The in-place replication pass (sampler.hh:820-825): for each slot `i`
in order, copy the value from slot `uRSIndices[i]` when it differs from `i`,
and reset the log-weight to 0. -/
def replicatePass {V : Type} [Inhabited V] (idx : List ℕ) (n : ℕ)
    (ps : List (Particle V)) : List (Particle V) :=
  (List.range n).foldl
    (fun acc i =>
      let src := idx.getD i 0
      let v := if src ≠ i then (getP acc src).val else (getP acc i).val
      acc.set i { val := v, lw := (0 : ℚ) })
    ps

/-- `Resample(lMode)` (sampler.hh:698-826): compute child counts by the
chosen strategy, flatten them to indices over the existing `uRSIndices`
workspace, replicate in place and zero all log-weights.  The workspace
members are updated as in the source (`dRSWeights` is written only by the
multinomial and residual branches). -/
def Resample {V : Type} [Inhabited V] (env : SmcEnv V) (mode : ResampleType)
    (s : SamplerState V) : SamplerState V :=
  let ws := s.particles.map (fun p => expW env.qexp p.lw)
  let counts := resampleCounts mode ws s.N env.mnom env.unif
  let fl := flattenCounts s.N counts s.uRSIndices
  { s with
    particles := replicatePass fl.2 s.N s.particles
    dRSWeights :=
      match mode with
      | ResampleType.multinomial => ws
      | ResampleType.residual => residualRemainders ws s.N
      | _ => s.dRSWeights
    uRSCount := fl.1
    uRSIndices := fl.2 }

/-! ## Fribble resampling (sampler.hh:472-521) and the variable-population
iteration (sampler.hh:523-622) -/

/-- The shared downsampling step (sampler.hh:509-519 and 594-604): draw `n`
parent indices by stratified sampling over the current weights and replicate
the chosen particles by value with log-weight 0. -/
def downsampleTo {V : Type} [Inhabited V] (qexp : ℚ → ℚ) (us : ℕ → ℚ)
    (ps : List (Particle V)) (n : ℕ) : List (Particle V) :=
  let idxs := SampleStratified (ps.map (fun p => expW qexp p.lw)) n us
  idxs.map (fun i => { val := (getP ps i).val, lw := (0 : ℚ) })

/-- The growth loop of `ResampleFribble` (sampler.hh:482-501): while the ESS
is below the threshold, sample `M = N` parents by stratified sampling,
append perturbed copies of them (value and log-weight inherited, then moved
by `DoMCMC(T+1, ...)`), and recompute the ESS.  `fuel` bounds the number of
passes; the source loop is unbounded, so every theorem below holds for all
`fuel`. -/
def fribbleGrowLoop {V : Type} [Inhabited V] (env : SmcEnv V) (t n : ℕ)
    (θ : ℚ) : ℕ → ℕ → List (Particle V) → ℚ → List (Particle V)
  | 0, _, ps, _ => ps
  | fuel + 1, pass, ps, ess =>
    if ess < θ then
      let idxs := SampleStratified (ps.map (fun p => expW env.qexp p.lw)) n env.unif
      let newPs := idxs.mapIdx
        (fun i idx => (env.DoMCMC t pass i ⟨(getP ps idx).val, (getP ps idx).lw⟩).1)
      let ps' := ps ++ newPs
      fribbleGrowLoop env t n θ fuel (pass + 1) ps' (essOf env ps')
    else ps

/-- `ResampleFribble(dESS)` (sampler.hh:472-521): grow the population until
the ESS reaches the threshold, then downsample back to `N` particles with
log-weights reset to 0. -/
def ResampleFribble {V : Type} [Inhabited V] (env : SmcEnv V) (fuel : ℕ)
    (ess : ℚ) (s : SamplerState V) : SamplerState V :=
  let grown := fribbleGrowLoop env (s.T + 1) s.N s.dResampleThreshold fuel 0 s.particles ess
  { s with particles := downsampleTo env.qexp env.unif grown s.N }

/-- One pass of the batch loop of `IterateEssVariable` (sampler.hh:542-583):
move a fresh copy of the starting particles, rescale so the accumulated
population keeps maximum log-weight 0, append, and compute the ESS of the
accumulated population.  Returns (new population, new global max, ESS). -/
def fribbleStep {V : Type} (env : SmcEnv V) (start : List (Particle V))
    (t pass : ℕ) (acc : List (Particle V)) (gmax : WithBot ℚ) :
    List (Particle V) × WithBot ℚ × ℚ :=
  let batch := start.mapIdx (fun i p => env.DoMove t pass i p)
  let lmax := maxLw batch
  let g1 := if acc.isEmpty then lmax else gmax
  if g1 < lmax then
    let acc' := acc.map (fun p => { p with lw := addW p.lw (wsub g1 lmax) })
    let batch' := batch.map (fun p => { p with lw := addW p.lw (negW lmax) })
    (acc' ++ batch', lmax, essOf env (acc' ++ batch'))
  else
    let batch' := batch.map (fun p => { p with lw := addW p.lw (negW g1) })
    (acc ++ batch', g1, essOf env (acc ++ batch'))

/-- The do-while batch loop of `IterateEssVariable` (sampler.hh:542-583):
run a batch, then repeat while `ESS < θ` and the population has fewer than
100000 particles.  Called with `fuel + 1` so at least one batch always runs,
matching the do-while; the 100000 cap bounds the source loop whenever
`N ≥ 1`, and all theorems below hold for every `fuel`. -/
def fribbleLoop {V : Type} (env : SmcEnv V) (start : List (Particle V))
    (t : ℕ) (θ : ℚ) : ℕ → ℕ → List (Particle V) → WithBot ℚ →
    List (Particle V) × ℚ
  | 0, _, acc, _ => (acc, essOf env acc)
  | fuel + 1, pass, acc, gmax =>
    let r := fribbleStep env start t pass acc gmax
    if r.2.2 < θ ∧ r.1.length < 100000 then
      fribbleLoop env start t θ fuel (pass + 1) r.1 r.2.1
    else (r.1, r.2.2)

/-! ## History operations (modelled from the spec; history.hh is not
under `src/`) -/

/-- Modelled from the spec: `History.Push(N, pParticles, nAccepted,
historyflags(nResampled))` copies the current snapshot onto the stack
(spec §3 and §4.4). -/
def pushHistory {V : Type} (s : SamplerState V) : SamplerState V :=
  { s with history := ⟨s.N, s.particles, s.nAccepted, s.nResampled != 0⟩ :: s.history }

/-- Modelled from the spec: the per-generation path-sampling integrand
`I_g = Σ_i exp(w_i)·f(g, particle_i) / Σ_i exp(w_i)` (spec §4.4). -/
def snapshotIntegrand {V : Type} (qexp : ℚ → ℚ) (f : ℕ → Particle V → ℚ)
    (g : ℕ) (snap : Snapshot V) : ℚ :=
  (snap.particles.map (fun p => expW qexp p.lw * f g p)).sum /
    (snap.particles.map (fun p => expW qexp p.lw)).sum

/-- Modelled from the spec: `History.IntegratePathSampling` walks the stack
oldest-first and performs the trapezoidal quadrature
`Σ_g 0.5·(width(g) + width(g−1))·(I_g + I_{g−1})` (spec §4.4). -/
def historyIntegratePS {V : Type} (qexp : ℚ → ℚ) (f : ℕ → Particle V → ℚ)
    (width : ℕ → ℚ) (hist : List (Snapshot V)) : ℚ :=
  let gens := hist.reverse
  let vals := gens.mapIdx (fun g snap => snapshotIntegrand qexp f g snap)
  (List.range vals.length).foldl
    (fun acc g =>
      if g = 0 then acc
      else acc + (width g + width (g - 1)) * (vals.getD g 0 + vals.getD (g - 1) 0) / 2)
    0

/-! ## The sampler driver -/

/-- `MoveParticles` (sampler.hh:686-693): apply `DoMove(T+1, ...)` to each
particle. -/
def MoveParticles {V : Type} (env : SmcEnv V) (t : ℕ)
    (ps : List (Particle V)) : List (Particle V) :=
  ps.mapIdx (fun i p => env.DoMove t 0 i p)

/-- The subtract-max normalisation of `IterateEss` (sampler.hh:637-641):
subtract the population maximum log-weight from every log-weight. -/
def normalizeStep {V : Type} (ps : List (Particle V)) : List (Particle V) :=
  let m := maxLw ps
  ps.map (fun p => { p with lw := wsub p.lw m })

/-- The MCMC pass of `IterateEss` (sampler.hh:661-670): apply
`DoMCMC(T+1, ...)` to each particle and accumulate the acceptance count. -/
def mcmcStep {V : Type} (env : SmcEnv V) (t : ℕ) (s : SamplerState V) :
    SamplerState V :=
  let pairs := s.particles.mapIdx (fun i p => env.DoMCMC t 0 i p)
  { s with
    particles := pairs.map (fun r => r.1)
    nAccepted := s.nAccepted + (pairs.map (fun r => r.2)).count true }

/-- The body of `IterateEss` after the optional history push
(sampler.hh:631-675): zero the acceptance count, move, normalise, compute
the ESS, resample if it is below the threshold (dispatching to
`ResampleFribble` in fribble mode), run the MCMC pass unless in fribble
mode, and advance `T`.  Returns the new state and the ESS of step 5.
`fuel` bounds the (source-unbounded) fribble growth loop. -/
def iterateEssCore {V : Type} [Inhabited V] (env : SmcEnv V) (fuel : ℕ)
    (s : SamplerState V) : SamplerState V × ℚ :=
  let s1 := { s with nAccepted := 0 }
  let ps2 := normalizeStep (MoveParticles env (s.T + 1) s1.particles)
  let ess := essOf env ps2
  let s2 := { s1 with particles := ps2 }
  let s3 :=
    if ess < s.dResampleThreshold then
      if s.rtResampleMode = ResampleType.fribblebits then
        ResampleFribble env fuel ess { s2 with nResampled := 1 }
      else
        Resample env s.rtResampleMode { s2 with nResampled := 1 }
    else { s2 with nResampled := 0 }
  let s4 :=
    if s.rtResampleMode ≠ ResampleType.fribblebits then mcmcStep env (s.T + 1) s3
    else s3
  ({ s4 with T := s.T + 1 }, ess)

/-- `IterateEss` (sampler.hh:624-676): push the current snapshot when
history is enabled, then run the iteration body. -/
def IterateEss {V : Type} [Inhabited V] (env : SmcEnv V) (fuel : ℕ)
    (s : SamplerState V) : SamplerState V × ℚ :=
  iterateEssCore env fuel
    (if s.htHistoryMode = HistoryType.none then s else pushHistory s)

/-- `IterateBack` (sampler.hh:382-391): raise `MISSING_HISTORY` when the
history mode is none (before any mutation); otherwise pop the top snapshot
into `N`, the particle vector and `nAccepted` (a pop of an empty stack is a
sentinel no-op on those fields, per spec §7) and decrement `T`. -/
def IterateBack {V : Type} (s : SamplerState V) :
    SamplerState V × Option SmcErr :=
  if s.htHistoryMode = HistoryType.none then (s, some SmcErr.missingHistory)
  else
    match s.history with
    | [] => ({ s with T := s.T - 1 }, none)
    | snap :: rest =>
        ({ s with
            N := snap.N
            particles := snap.particles
            nAccepted := snap.nAccepted
            history := rest
            T := s.T - 1 }, none)

/-- `IntegratePathSampling` (sampler.hh:357-367): raise `MISSING_HISTORY`
when the history mode is none (before any mutation); otherwise push the
current generation, integrate over the history, and pop it again. -/
def IntegratePathSampling {V : Type} (env : SmcEnv V)
    (f : ℕ → Particle V → ℚ) (width : ℕ → ℚ) (s : SamplerState V) :
    (SamplerState V × ℚ) × Option SmcErr :=
  if s.htHistoryMode = HistoryType.none then ((s, 0), some SmcErr.missingHistory)
  else
    let s1 := pushHistory s
    let r := historyIntegratePS env.qexp f width s1.history
    (({ s1 with history := s1.history.tail }, r), none)

/-- `Initialise` (sampler.hh:308-323): reset `T` to 0, initialise every
particle from the moveset, and (when history is enabled) clear the history
stack and push the generation-0 snapshot with `nResampled = 0`. -/
def Initialise {V : Type} (env : SmcEnv V) (s : SamplerState V) :
    SamplerState V :=
  let ps := (List.range s.N).map (fun i => env.DoInit i)
  if s.htHistoryMode = HistoryType.none then
    { s with T := 0, particles := ps }
  else
    { s with
      T := 0
      particles := ps
      nResampled := 0
      history := [⟨s.N, ps, 0, false⟩] }

/-- `IterateEssVariable` (sampler.hh:523-622): push the snapshot when
history is enabled, stash the starting particles, run the batch loop from
an empty population, downsample when the population exceeds `N` (setting
`nResampled = 1` only then), run the MCMC pass and advance `T`. -/
def IterateEssVariable {V : Type} [Inhabited V] (env : SmcEnv V) (fuel : ℕ)
    (s : SamplerState V) : SamplerState V × ℚ :=
  let s0 := if s.htHistoryMode = HistoryType.none then s else pushHistory s
  let start := s0.particles
  let r := fribbleLoop env start (s.T + 1) s.dResampleThreshold (fuel + 1) 0 [] ⊥
  let pr :=
    if s.N < r.1.length then (downsampleTo env.qexp env.unif r.1 s.N, 1)
    else (r.1, s0.nResampled)
  let pairs := pr.1.mapIdx (fun i p => env.DoMCMC (s.T + 1) 0 i p)
  ({ s0 with
      particles := pairs.map (fun q => q.1)
      nResampled := pr.2
      nAccepted := (pairs.map (fun q => q.2)).count true
      T := s.T + 1 }, r.2)

/-- The two-argument constructor `sampler(lSize, htHM)` (sampler.hh:228-249):
allocate `lSize` default particles and three size-`N` workspaces
(value-initialised to zero), default the resample mode to stratified and the
threshold to `0.5 * N`.  `T`, `nAccepted` and `nResampled` are left
uninitialised by the source; the model picks 0. -/
def mkSampler (V : Type) [Inhabited V] (lSize : ℕ) (htHM : HistoryType) :
    SamplerState V :=
  { N := lSize
    T := 0
    rtResampleMode := ResampleType.stratified
    dResampleThreshold := (1 / 2 : ℚ) * lSize
    dRSWeights := List.replicate lSize 0
    uRSCount := List.replicate lSize 0
    uRSIndices := List.replicate lSize 0
    particles := List.replicate lSize default
    nAccepted := 0
    nResampled := 0
    htHistoryMode := htHM
    history := [] }

/-- The four-argument constructor
`sampler(lSize, htHM, rngType, rngSeed)` (sampler.hh:260-281): identical to
the two-argument one except for the RNG it allocates (the RNG lives in
`SmcEnv` in this model, so the extra arguments only select the stream). -/
def mkSamplerSeeded (V : Type) [Inhabited V] (lSize : ℕ)
    (htHM : HistoryType) (_rngSeed : ℕ) : SamplerState V :=
  mkSampler V lSize htHM

/-! ## The IEEE special-value model `Xd`

Exact rationals extended with `−∞`, `+∞` and `NaN`, with the arithmetic,
comparison and `exp`/`log` special-value propagation mandated by IEEE 754 /
C99 Annex F.  This is used where the claims turn on the behaviour of the
`double` computations of `GetESS` (sampler.hh:289-302), the resampling
trigger `ESS < dResampleThreshold` (sampler.hh:647) and the subtract-max
normalisation (sampler.hh:637-641) on populations whose log-weights are all
`−∞`.  Those paths manipulate only special values and exact zeros, so no
rounding is involved; `exp`/`log` on finite positive arguments are kept
abstract (`e`, `l`). -/

/-- An IEEE `double` value: `NaN`, `−∞`, `+∞`, or a finite value
(modelled exactly as a rational). -/
inductive Xd where
  | nan
  | ninf
  | pinf
  | fin (q : ℚ)
deriving DecidableEq, Repr

/-- IEEE addition on `Xd`: `NaN` propagates, `+∞ + −∞ = NaN`. -/
def Xd.add : Xd → Xd → Xd
  | Xd.nan, _ => Xd.nan
  | _, Xd.nan => Xd.nan
  | Xd.pinf, Xd.ninf => Xd.nan
  | Xd.ninf, Xd.pinf => Xd.nan
  | Xd.pinf, _ => Xd.pinf
  | _, Xd.pinf => Xd.pinf
  | Xd.ninf, _ => Xd.ninf
  | _, Xd.ninf => Xd.ninf
  | Xd.fin a, Xd.fin b => Xd.fin (a + b)

/-- IEEE subtraction on `Xd`: `NaN` propagates, `−∞ − −∞ = NaN`,
`+∞ − +∞ = NaN`. -/
def Xd.sub : Xd → Xd → Xd
  | Xd.nan, _ => Xd.nan
  | _, Xd.nan => Xd.nan
  | Xd.pinf, Xd.pinf => Xd.nan
  | Xd.ninf, Xd.ninf => Xd.nan
  | Xd.pinf, _ => Xd.pinf
  | Xd.ninf, _ => Xd.ninf
  | _, Xd.pinf => Xd.ninf
  | _, Xd.ninf => Xd.pinf
  | Xd.fin a, Xd.fin b => Xd.fin (a - b)

/-- IEEE negation on `Xd`. -/
def Xd.neg : Xd → Xd
  | Xd.nan => Xd.nan
  | Xd.ninf => Xd.pinf
  | Xd.pinf => Xd.ninf
  | Xd.fin q => Xd.fin (-q)

/-- `2.0 * x` on `Xd`. -/
def Xd.twice : Xd → Xd
  | Xd.nan => Xd.nan
  | Xd.ninf => Xd.ninf
  | Xd.pinf => Xd.pinf
  | Xd.fin q => Xd.fin (2 * q)

/-- The IEEE `<` comparison on `Xd`: every comparison involving `NaN` is
false. -/
def Xd.lt : Xd → Xd → Bool
  | Xd.nan, _ => false
  | _, Xd.nan => false
  | Xd.ninf, Xd.ninf => false
  | Xd.ninf, _ => true
  | _, Xd.ninf => false
  | Xd.pinf, _ => false
  | _, Xd.pinf => true
  | Xd.fin a, Xd.fin b => a < b

/-- C99 `expl` on `Xd`: `exp(NaN) = NaN`, `exp(−∞) = +0`, `exp(+∞) = +∞`;
`e` stands for the (rounded) exponential on finite arguments. -/
def Xd.exp (e : ℚ → ℚ) : Xd → Xd
  | Xd.nan => Xd.nan
  | Xd.ninf => Xd.fin 0
  | Xd.pinf => Xd.pinf
  | Xd.fin q => Xd.fin (e q)

/-- C99 `log` on `Xd`: `log(NaN) = NaN`, `log(±0) = −∞`, `log(x) = NaN` for
`x < 0` (hence also for `−∞`), `log(+∞) = +∞`; `l` stands for the (rounded)
logarithm on finite positive arguments. -/
def Xd.log (l : ℚ → ℚ) : Xd → Xd
  | Xd.nan => Xd.nan
  | Xd.ninf => Xd.nan
  | Xd.pinf => Xd.pinf
  | Xd.fin q => if q = 0 then Xd.ninf else if q < 0 then Xd.nan else Xd.fin (l q)

/-- `GetESS` (sampler.hh:289-302) over the IEEE model: sum the
exponentiated log-weights (and their doubles) starting from 0, then return
`expl(-log(sumsq) + 2 * log(sum))`. -/
def GetESSxd (e l : ℚ → ℚ) (ws : List Xd) : Xd :=
  let sum := (ws.map (Xd.exp e)).foldl Xd.add (Xd.fin 0)
  let sumsq := (ws.map (fun w => Xd.exp e w.twice)).foldl Xd.add (Xd.fin 0)
  Xd.exp e (Xd.add (Xd.neg (Xd.log l sumsq)) (Xd.twice (Xd.log l sum)))

/-- The resampling decision of `IterateEss` (sampler.hh:647-659) over the
IEEE model: `nResampled` is 1 exactly when `ESS < dResampleThreshold`
evaluates to true. -/
def resampleFlagXd (e l : ℚ → ℚ) (ws : List Xd) (θ : ℚ) : ℕ :=
  if Xd.lt (GetESSxd e l ws) (Xd.fin θ) then 1 else 0

/-- `std::max(a, b)`, i.e. `(a < b) ? b : a`, over the IEEE model. -/
def Xd.max2 (a b : Xd) : Xd :=
  if Xd.lt a b then b else a

/-- The maximum log-weight fold of sampler.hh:637-639 over the IEEE model
(`dMaxWeight` starts at `−infinity`). -/
def maxXd (ws : List Xd) : Xd :=
  ws.foldl Xd.max2 Xd.ninf

/-- The subtract-max normalisation (sampler.hh:637-641) over the IEEE
model: each log-weight becomes `w − max`. -/
def normalizeXd (ws : List Xd) : List Xd :=
  let m := maxXd ws
  ws.map (fun w => Xd.sub w m)

/-! ## Specification-side descriptions of the flattening (for the
count→index theorems)

`zeroIdx c m` lists, in increasing order, the free slots (`c_p = 0`) among
`p < m`; `surplusPre c m` lists, in increasing order of parent, the surplus
copies (`c_p − 1` copies of `p` for each `p < m`).  The flattening fills the
`t`-th free slot with the `t`-th surplus copy. -/

/-- The free slots `p < m` (child count zero), in increasing order. -/
def zeroIdx (c : List ℕ) : ℕ → List ℕ
  | 0 => []
  | m + 1 => zeroIdx c m ++ (if c.getD m 0 = 0 then [m] else [])

/-- The surplus copies among parents `p < m`: `c_p − 1` copies of each `p`,
in increasing order of `p`. -/
def surplusPre (c : List ℕ) : ℕ → List ℕ
  | 0 => []
  | m + 1 => surplusPre c m ++ List.replicate (c.getD m 0 - 1) m

/-- A concrete environment over `V = ℕ` used by the witnesses: identity
move kernels, an always-rejecting MCMC kernel, `exp ≡ 1`, `log ≡ 0`, the
zero uniform stream, and a multinomial model putting all trials on the
first slot. -/
def envW : SmcEnv ℕ :=
  { DoInit := fun i => ⟨i, 0⟩
    DoMove := fun _ _ _ p => p
    DoMCMC := fun _ _ _ p => (p, false)
    qexp := fun _ => 1
    qlog := fun _ => 0
    unif := fun _ => 0
    mnom := fun t wl =>
      match wl with
      | [] => []
      | _ :: rest => t :: rest.map (fun _ => 0) }

/-! # Theorems

First a small API for `List.getD` with a fixed default, used throughout. -/

theorem getD_oob {α : Type} {c : List α} {i : ℕ} (d : α) (h : c.length ≤ i) :
    c.getD i d = d := by
  simp [List.getD_eq_getElem?_getD, List.getElem?_eq_none h]

theorem getD_set_same {α : Type} {c : List α} {i : ℕ} (d : α)
    (h : i < c.length) (v : α) : (c.set i v).getD i d = v := by
  simp [List.getD_eq_getElem?_getD, List.getElem?_set_self h]

theorem getD_set_diff {α : Type} {c : List α} {i j : ℕ} (d : α) (h : i ≠ j)
    (v : α) : (c.set i v).getD j d = c.getD j d := by
  simp [List.getD_eq_getElem?_getD, List.getElem?_set_ne h]

theorem getD_mem {α : Type} {c : List α} {i : ℕ} (d : α) (h : i < c.length) :
    c.getD i d ∈ c := by
  simp only [List.getD_eq_getElem?_getD, List.getElem?_eq_getElem h, Option.getD_some]
  exact List.getElem_mem h

theorem sum_set_nat {c : List ℕ} {k : ℕ} (h : k < c.length) (v : ℕ) :
    (c.set k v).sum + c.getD k 0 = c.sum + v := by
  induction c generalizing k with
  | nil => simp at h
  | cons x xs ih =>
    cases k with
    | zero => simp [List.getD_cons_zero]; ring
    | succ k =>
      simp only [List.set_cons_succ, List.sum_cons, List.getD_cons_succ]
      have := ih (k := k) (by simpa using h)
      omega

/-! ## C10: constructor defaults -/

/-- **C10.** A freshly constructed sampler (by either constructor), before
any call to `SetResampleParams`, has resample mode stratified and resample
threshold exactly `0.5 * N`, and its three resampling workspace arrays each
have size `N` (sampler.hh:228-249, 260-281). -/
theorem c10_constructor_defaults (V : Type) [Inhabited V] (lSize : ℕ)
    (htHM : HistoryType) (rngSeed : ℕ) :
    ((mkSampler V lSize htHM).rtResampleMode = ResampleType.stratified ∧
      (mkSampler V lSize htHM).dResampleThreshold = (1 / 2 : ℚ) * lSize ∧
      (mkSampler V lSize htHM).dRSWeights.length = lSize ∧
      (mkSampler V lSize htHM).uRSCount.length = lSize ∧
      (mkSampler V lSize htHM).uRSIndices.length = lSize) ∧
    ((mkSamplerSeeded V lSize htHM rngSeed).rtResampleMode = ResampleType.stratified ∧
      (mkSamplerSeeded V lSize htHM rngSeed).dResampleThreshold = (1 / 2 : ℚ) * lSize ∧
      (mkSamplerSeeded V lSize htHM rngSeed).dRSWeights.length = lSize ∧
      (mkSamplerSeeded V lSize htHM rngSeed).uRSCount.length = lSize ∧
      (mkSamplerSeeded V lSize htHM rngSeed).uRSIndices.length = lSize) := by
  simp [mkSampler, mkSamplerSeeded]

/-! ## C6: MISSING_HISTORY -/

/-- **C6.** `IterateBack` and `IntegratePathSampling` raise the
`MISSING_HISTORY` failure if and only if the history mode is
`SMC_HISTORY_NONE`; when it is raised the sampler state is unchanged
(sampler.hh:357-367, 382-391: the throw happens before any mutation). -/
theorem c6_missing_history {V : Type} (env : SmcEnv V)
    (f : ℕ → Particle V → ℚ) (width : ℕ → ℚ) (s : SamplerState V) :
    ((IterateBack s).2 = some SmcErr.missingHistory ↔
      s.htHistoryMode = HistoryType.none) ∧
    ((IterateBack s).2 ≠ none → (IterateBack s).1 = s) ∧
    ((IntegratePathSampling env f width s).2 = some SmcErr.missingHistory ↔
      s.htHistoryMode = HistoryType.none) ∧
    ((IntegratePathSampling env f width s).2 ≠ none →
      (IntegratePathSampling env f width s).1.1 = s) := by
  unfold IterateBack IntegratePathSampling
  by_cases h : s.htHistoryMode = HistoryType.none
  · simp [h]
  · refine ⟨?_, ?_, ?_, ?_⟩ <;> simp only [if_neg h]
    · constructor
      · intro hc
        exfalso
        cases hh : s.history with
        | nil => rw [hh] at hc; simp at hc
        | cons a rest => rw [hh] at hc; simp at hc
      · intro hc; exact absurd hc h
    · intro hc
      exfalso
      cases hh : s.history with
      | nil => rw [hh] at hc; simp at hc
      | cons a rest => rw [hh] at hc; simp at hc
    · simp [h]
    · simp

/-- Witness for C6 at a concrete state: with history mode `none`, both
operations raise `MISSING_HISTORY`. -/
theorem c6_missing_history_witness :
    (IterateBack (mkSampler ℕ 1 HistoryType.none)).2 = some SmcErr.missingHistory :=
  (c6_missing_history
    ⟨fun _ => ⟨0, 0⟩, fun _ _ _ p => p, fun _ _ _ p => (p, false),
      fun q => q, fun q => q, fun _ => 0, fun t wl => List.replicate wl.length t⟩
    (fun _ _ => 0) (fun _ => 0) (mkSampler ℕ 1 HistoryType.none)).1.mpr rfl

/-! ## C4: GetESS -/

/-- Counterexample to C4 as stated: on a population whose log-weights are
all `−∞`, `GetESS` computes `expl(-log(0) + 2·log(0)) = expl(∞ + (−∞)) =
NaN` — not `0` — and since every IEEE comparison with `NaN` is false, the
trigger `ESS < dResampleThreshold` of `IterateEss` (sampler.hh:647) does
*not* fire: `nResampled = 0`, not `1`. -/
theorem c4_counterexample :
    GetESSxd (fun q => q) (fun q => q) [Xd.ninf, Xd.ninf] = Xd.nan ∧
    GetESSxd (fun q => q) (fun q => q) [Xd.ninf, Xd.ninf] ≠ Xd.fin 0 ∧
    resampleFlagXd (fun q => q) (fun q => q) [Xd.ninf, Xd.ninf] 1 = 0 := by
  have h : GetESSxd (fun q => q) (fun q => q) [Xd.ninf, Xd.ninf] = Xd.nan := by
    norm_num [GetESSxd, Xd.exp, Xd.add, Xd.log, Xd.twice, Xd.neg]
  refine ⟨h, by rw [h]; intro hc; exact Xd.noConfusion hc, ?_⟩
  rw [resampleFlagXd, h]
  rfl

theorem foldl_xd_add_fin_zero :
    ∀ (l : List Xd), (∀ x ∈ l, x = Xd.fin 0) → ∀ q : ℚ,
      l.foldl Xd.add (Xd.fin q) = Xd.fin q := by
  intro l
  induction l with
  | nil => intro _ q; rfl
  | cons x xs ih =>
    intro h q
    have hx : x = Xd.fin 0 := h x (List.mem_cons_self x xs)
    have : Xd.add (Xd.fin q) x = Xd.fin q := by rw [hx]; simp [Xd.add]
    simpa [this] using ih (fun y hy => h y (List.mem_cons_of_mem _ hy)) q

/-- **C4 (amended).** `GetESS` returns `(Σ_i exp(w_i))² / Σ_i exp(2·w_i)`
over the current log-weights whenever that computation stays in the positive
reals (`Σ_i exp(w_i) > 0`, i.e. at least one log-weight is finite); the
first conjunct states this over any linear ordered field equipped with
exp/log satisfying the laws that `Real.exp`/`Real.log` satisfy.
When every particle has log-weight `−∞`, however, the computed ESS is `NaN`
(not 0) and the resampling trigger of `IterateEss` does **not** fire
(`nResampled = 0`): the second conjunct states this over the IEEE model. -/
theorem c4_getess_value :
    (∀ (F : Type) [LinearOrderedField F] (fexp flog : F → F)
      (ws : List (WithBot F)),
      (∀ x y, fexp (x + y) = fexp x * fexp y) →
      (∀ a : F, 0 < a → fexp (flog a) = a) →
      (∀ x, 0 < fexp x) →
      0 < wSum fexp ws →
      GetESS fexp flog ws = (wSum fexp ws) ^ 2 / wSumSq fexp ws) ∧
    (∀ (e l : ℚ → ℚ) (ws : List Xd) (θ : ℚ), (∀ w ∈ ws, w = Xd.ninf) →
      GetESSxd e l ws = Xd.nan ∧ resampleFlagXd e l ws θ = 0) := by
  constructor
  · intro F _ fexp flog ws hadd hlog hpos hsum
    have hnonneg : ∀ w : WithBot F, 0 ≤ expWF fexp w := by
      intro w
      induction w using WithBot.recBotCoe with
      | bot => simp [expWF]
      | coe a => exact le_of_lt (hpos a)
    -- at least one finite log-weight
    have hex : ∃ w ∈ ws, expWF fexp w ≠ 0 := by
      by_contra hall
      push_neg at hall
      have : wSum fexp ws = 0 := by
        apply List.sum_eq_zero
        intro x hx
        obtain ⟨w, hw, rfl⟩ := List.mem_map.mp hx
        exact hall w hw
      rw [this] at hsum; exact lt_irrefl 0 hsum
    obtain ⟨w, hw, hwne⟩ := hex
    have hsumsq : 0 < wSumSq fexp ws := by
      induction w using WithBot.recBotCoe with
      | bot => simp [expWF] at hwne
      | coe a =>
        have hmem : expWF fexp (wdouble (a : WithBot F)) ∈
            ws.map (fun w => expWF fexp (wdouble w)) :=
          List.mem_map_of_mem _ hw
        have hle : expWF fexp (wdouble (a : WithBot F)) ≤ wSumSq fexp ws := by
          apply List.single_le_sum _ _ hmem
          intro x hx
          obtain ⟨w', _, rfl⟩ := List.mem_map.mp hx
          exact hnonneg _
        have hgt : 0 < expWF fexp (wdouble (a : WithBot F)) := by
          simp only [wdouble, WithBot.recBotCoe_coe, expWF]
          exact hpos _
        exact lt_of_lt_of_le hgt hle
    -- exp(0) = 1, hence exp(-x) = (exp x)⁻¹
    have hone : fexp 0 = 1 := by
      have h0 : fexp 0 * fexp 0 = fexp 0 * 1 := by
        rw [mul_one, ← hadd]; norm_num
      exact mul_left_cancel₀ (ne_of_gt (hpos 0)) h0
    have hinv : ∀ x, fexp (-x) = (fexp x)⁻¹ := by
      intro x
      have hx : fexp (-x) * fexp x = 1 := by rw [← hadd]; simp [hone]
      exact eq_inv_of_mul_eq_one_left hx
    unfold GetESS
    rw [hadd, hinv, two_mul, hadd, hlog _ hsum, hlog _ hsumsq]
    field_simp
    ring
  · intro e l ws θ hall
    have hmap1 : ∀ x ∈ ws.map (Xd.exp e), x = Xd.fin 0 := by
      intro x hx
      obtain ⟨w, hw, rfl⟩ := List.mem_map.mp hx
      rw [hall w hw]; rfl
    have hmap2 : ∀ x ∈ ws.map (fun w => Xd.exp e w.twice), x = Xd.fin 0 := by
      intro x hx
      obtain ⟨w, hw, rfl⟩ := List.mem_map.mp hx
      rw [hall w hw]; rfl
    have hnan : GetESSxd e l ws = Xd.nan := by
      unfold GetESSxd
      rw [foldl_xd_add_fin_zero _ hmap1, foldl_xd_add_fin_zero _ hmap2]
      rfl
    refine ⟨hnan, ?_⟩
    unfold resampleFlagXd
    rw [hnan]
    rfl

/-- Witness for C4: the formula conjunct instantiated at `ℝ` with
`Real.exp`/`Real.log` on the single-particle population with log-weight 0,
and the NaN conjunct instantiated on the all-`−∞` population `[−∞]`. -/
theorem c4_getess_value_witness :
    (0 : ℝ) < wSum Real.exp [((0 : ℝ) : WithBot ℝ)] ∧
    GetESS Real.exp Real.log [((0 : ℝ) : WithBot ℝ)] =
      (wSum Real.exp [((0 : ℝ) : WithBot ℝ)]) ^ 2 /
        wSumSq Real.exp [((0 : ℝ) : WithBot ℝ)] ∧
    GetESSxd (fun q => q) (fun q => q) [Xd.ninf] = Xd.nan ∧
    resampleFlagXd (fun q => q) (fun q => q) [Xd.ninf] 2 = 0 := by
  have hs : (0 : ℝ) < wSum Real.exp [((0 : ℝ) : WithBot ℝ)] := by
    simp only [wSum, List.map_cons, List.map_nil, expWF, WithBot.recBotCoe_coe,
      List.sum_cons, List.sum_nil, add_zero]
    exact Real.exp_pos 0
  refine ⟨hs, ?_, ?_, ?_⟩
  · exact c4_getess_value.1 ℝ Real.exp Real.log _
      (fun x y => Real.exp_add x y) (fun a ha => Real.exp_log ha)
      Real.exp_pos hs
  · exact (c4_getess_value.2 (fun q => q) (fun q => q) [Xd.ninf] 2
      (by intro w hw; simpa using hw)).1
  · exact (c4_getess_value.2 (fun q => q) (fun q => q) [Xd.ninf] 2
      (by intro w hw; simpa using hw)).2

/-! ## C8: the subtract-max normalisation

Helper lemmas about the `std::max` fold `maxLw`. -/

theorem wmax_eq_max (a b : WithBot ℚ) : wmax a b = max a b := by
  unfold wmax
  rcases lt_trichotomy a b with h | h | h
  · rw [if_pos h, max_eq_right h.le]
  · subst h; simp
  · rw [if_neg (not_lt.mpr h.le), max_eq_left h.le]

theorem foldl_lw_init_le {V : Type} (ps : List (Particle V)) (init : WithBot ℚ) :
    init ≤ ps.foldl (fun acc q => wmax acc q.lw) init := by
  induction ps generalizing init with
  | nil => exact le_refl _
  | cons p ps ih =>
    calc init ≤ wmax init p.lw := by rw [wmax_eq_max]; exact le_max_left _ _
    _ ≤ _ := ih _

theorem wmax_lt_eq {a b : WithBot ℚ} (h : a < b) : wmax a b = b := if_pos h

theorem wmax_not_lt_eq {a b : WithBot ℚ} (h : ¬a < b) : wmax a b = a := if_neg h

theorem foldl_lw_le {V : Type} {p : Particle V} :
    ∀ (ps : List (Particle V)) (init : WithBot ℚ), p ∈ ps →
      p.lw ≤ ps.foldl (fun acc q => wmax acc q.lw) init := by
  intro ps
  induction ps with
  | nil => intro init h; simp at h
  | cons x xs ih =>
    intro init h
    rcases List.mem_cons.mp h with rfl | hx
    · calc p.lw ≤ wmax init p.lw := by rw [wmax_eq_max]; exact le_max_right _ _
      _ ≤ _ := foldl_lw_init_le _ _
    · exact ih _ hx

theorem foldl_lw_cases {V : Type} :
    ∀ (ps : List (Particle V)) (init : WithBot ℚ),
      ps.foldl (fun acc q => wmax acc q.lw) init = init ∨
        ∃ p ∈ ps, ps.foldl (fun acc q => wmax acc q.lw) init = p.lw := by
  intro ps
  induction ps with
  | nil => intro init; exact Or.inl rfl
  | cons x xs ih =>
    intro init
    simp only [List.foldl_cons]
    rcases ih (wmax init x.lw) with h | ⟨p, hp, h⟩
    · by_cases hlt : init < x.lw
      · rw [wmax_lt_eq hlt] at h ⊢
        exact Or.inr ⟨x, List.mem_cons_self x xs, h⟩
      · rw [wmax_not_lt_eq hlt] at h ⊢
        exact Or.inl h
    · exact Or.inr ⟨p, List.mem_cons_of_mem _ hp, h⟩

theorem le_maxLw {V : Type} {ps : List (Particle V)} {p : Particle V}
    (h : p ∈ ps) : p.lw ≤ maxLw ps :=
  foldl_lw_le ps ⊥ h

theorem maxLw_cases {V : Type} (ps : List (Particle V)) :
    maxLw ps = ⊥ ∨ ∃ p ∈ ps, maxLw ps = p.lw :=
  foldl_lw_cases ps ⊥

/-- Counterexample to C8 as stated: on the single-particle population with
log-weight `−∞`, the subtract-max step computes `−∞ − (−∞) = NaN`
(sampler.hh:641), so afterwards no particle has log-weight 0 — in
particular the population maximum (as the source would compute it, folding
`std::max` from `−∞`) is not 0. -/
theorem c8_counterexample :
    normalizeXd [Xd.ninf] = [Xd.nan] ∧
    maxXd (normalizeXd [Xd.ninf]) ≠ Xd.fin 0 := by
  decide

/-- **C8 (amended).** In every `IterateEss` call, immediately after the
subtract-max normalisation (sampler.hh:637-641) — applied to the population
produced by the move step — the maximum log-weight over the population
equals 0, *provided at least one particle has a finite log-weight* (when
every log-weight is `−∞` the subtraction yields `NaN` and the property
fails, see the counterexample). -/
theorem c8_subtract_max_zero {V : Type} (env : SmcEnv V) (s : SamplerState V)
    (h : ∃ p ∈ MoveParticles env (s.T + 1) s.particles, p.lw ≠ ⊥) :
    maxLw (normalizeStep (MoveParticles env (s.T + 1) s.particles)) =
      ((0 : ℚ) : WithBot ℚ) := by
  obtain ⟨p0, hp0, hlw⟩ := h
  set ps := MoveParticles env (s.T + 1) s.particles with hps
  -- the pre-normalisation maximum is finite
  have hm : maxLw ps ≠ ⊥ := by
    intro hbot
    have := le_maxLw hp0
    rw [hbot, le_bot_iff] at this
    exact hlw this
  obtain ⟨q, hq⟩ := WithBot.ne_bot_iff_exists.mp hm
  -- every normalised log-weight is ≤ 0
  have hub : ∀ r ∈ normalizeStep ps, r.lw ≤ ((0 : ℚ) : WithBot ℚ) := by
    intro r hr
    obtain ⟨p, hp, rfl⟩ := List.mem_map.mp hr
    by_cases hpl : p.lw = ⊥
    · simp [wsub, hpl]
    · obtain ⟨a, hpa⟩ := WithBot.ne_bot_iff_exists.mp hpl
      have hle : a ≤ q := by
        have h1 := le_maxLw hp
        rw [← hq, ← hpa, WithBot.coe_le_coe] at h1
        exact h1
      simp only [wsub, ← hpa, ← hq, WithBot.recBotCoe_coe, WithBot.coe_le_coe]
      linarith
  -- the maximum is attained, and normalises to exactly 0
  have hattain : ∃ r ∈ normalizeStep ps, r.lw = ((0 : ℚ) : WithBot ℚ) := by
    rcases maxLw_cases ps with hbot | ⟨pm, hpm, hpmw⟩
    · exact absurd hbot hm
    · refine ⟨{ pm with lw := wsub pm.lw (maxLw ps) }, List.mem_map_of_mem _ hpm, ?_⟩
      have : wsub pm.lw (maxLw ps) = ((q - q : ℚ) : WithBot ℚ) := by
        simp only [wsub, ← hpmw, ← hq, WithBot.recBotCoe_coe]
      simp [this]
  obtain ⟨r0, hr0, hr0w⟩ := hattain
  have h1 : ((0 : ℚ) : WithBot ℚ) ≤ maxLw (normalizeStep ps) := by
    rw [← hr0w]; exact le_maxLw hr0
  have h2 : maxLw (normalizeStep ps) ≤ ((0 : ℚ) : WithBot ℚ) := by
    rcases maxLw_cases (normalizeStep ps) with hbot | ⟨r, hr, hrw⟩
    · rw [hbot]; exact bot_le
    · rw [hrw]; exact hub r hr
  exact le_antisymm h2 h1

/-- Witness for C8 (amended): a two-particle population with one finite and
one `−∞` log-weight, moved by the identity kernel, normalises to maximum
log-weight 0. -/
theorem c8_subtract_max_zero_witness :
    (∃ p ∈ MoveParticles
        ⟨fun _ => ⟨0, 0⟩, fun _ _ _ p => p, fun _ _ _ p => (p, false),
          fun q => q, fun q => q, fun _ => 0, fun t wl => List.replicate wl.length t⟩
        ((mkSampler ℕ 2 HistoryType.none).T + 1)
        [⟨0, ((3 : ℚ) : WithBot ℚ)⟩, ⟨1, ⊥⟩], p.lw ≠ ⊥) ∧
    maxLw (normalizeStep (MoveParticles
        ⟨fun _ => ⟨0, 0⟩, fun _ _ _ p => p, fun _ _ _ p => (p, false),
          fun q => q, fun q => q, fun _ => 0, fun t wl => List.replicate wl.length t⟩
        ((mkSampler ℕ 2 HistoryType.none).T + 1)
        [⟨0, ((3 : ℚ) : WithBot ℚ)⟩, ⟨1, ⊥⟩])) = ((0 : ℚ) : WithBot ℚ) := by
  have h : ∃ p ∈ MoveParticles
      ⟨fun _ => ⟨0, 0⟩, fun _ _ _ p => p, fun _ _ _ p => (p, false),
        fun q => q, fun q => q, fun _ => 0, fun t wl => List.replicate wl.length t⟩
      ((mkSampler ℕ 2 HistoryType.none).T + 1)
      [⟨0, ((3 : ℚ) : WithBot ℚ)⟩, ⟨1, ⊥⟩], p.lw ≠ ⊥ := by
    refine ⟨⟨0, ((3 : ℚ) : WithBot ℚ)⟩, ?_, by simp⟩
    simp [MoveParticles, List.mapIdx_cons]
  exact ⟨h, c8_subtract_max_zero _
    { mkSampler ℕ 2 HistoryType.none with
        particles := [⟨0, ((3 : ℚ) : WithBot ℚ)⟩, ⟨1, ⊥⟩] } h⟩

/-! ## C3: log-weights after resampling -/

theorem getD_lt_eq {α : Type} {l : List α} {k : ℕ} (d : α) (h : k < l.length) :
    l.getD k d = l[k] := by
  simp [List.getD_eq_getElem?_getD, List.getElem?_eq_getElem h]

theorem mem_imp_getD {α : Type} {l : List α} {p : α} (d : α) (h : p ∈ l) :
    ∃ k, k < l.length ∧ l.getD k d = p := by
  obtain ⟨k, hk, hek⟩ := List.mem_iff_getElem.mp h
  exact ⟨k, hk, by rw [getD_lt_eq d hk]; exact hek⟩

theorem replicatePass_length {V : Type} [Inhabited V] (idx : List ℕ) :
    ∀ (n : ℕ) (ps : List (Particle V)),
      (replicatePass idx n ps).length = ps.length := by
  have haux : ∀ (l : List ℕ) (ps : List (Particle V)),
      (l.foldl (fun acc i =>
        let src := idx.getD i 0
        let v := if src ≠ i then (getP acc src).val else (getP acc i).val
        acc.set i { val := v, lw := (0 : ℚ) }) ps).length = ps.length := by
    intro l
    induction l with
    | nil => intro ps; rfl
    | cons x xs ih => intro ps; rw [List.foldl_cons, ih]; simp
  intro n ps
  exact haux (List.range n) ps

theorem replicatePass_succ {V : Type} [Inhabited V] (idx : List ℕ) (n : ℕ)
    (ps : List (Particle V)) :
    replicatePass idx (n + 1) ps =
      (replicatePass idx n ps).set n
        { val := if idx.getD n 0 ≠ n
            then (getP (replicatePass idx n ps) (idx.getD n 0)).val
            else (getP (replicatePass idx n ps) n).val
          lw := (0 : ℚ) } := by
  unfold replicatePass
  rw [List.range_succ, List.foldl_append, List.foldl_cons, List.foldl_nil]

theorem replicatePass_getD_lw {V : Type} [Inhabited V] (idx : List ℕ) :
    ∀ (n : ℕ) (ps : List (Particle V)) (k : ℕ), k < n → k < ps.length →
      ((replicatePass idx n ps).getD k default).lw = ((0 : ℚ) : WithBot ℚ) := by
  intro n
  induction n with
  | zero => intro ps k hk; omega
  | succ n ih =>
    intro ps k hk hkp
    rw [replicatePass_succ]
    have hlen : (replicatePass idx n ps).length = ps.length :=
      replicatePass_length idx n ps
    rcases Nat.lt_or_ge k n with hkn | hkn
    · rw [getD_set_diff _ (by omega : n ≠ k)]
      exact ih ps k hkn hkp
    · have hkeq : k = n := by omega
      subst hkeq
      rw [getD_set_same _ (by omega)]

theorem replicatePass_lw {V : Type} [Inhabited V] (idx : List ℕ) (n : ℕ)
    (ps : List (Particle V)) (hlen : ps.length = n) :
    ∀ p ∈ replicatePass idx n ps, p.lw = ((0 : ℚ) : WithBot ℚ) := by
  intro p hp
  obtain ⟨k, hk, hgd⟩ := mem_imp_getD default hp
  rw [replicatePass_length idx n ps, hlen] at hk
  rw [← hgd]
  exact replicatePass_getD_lw idx n ps k hk (by omega)

/-- **C3.** After any resampling operation completes, every particle in the
population has log-weight exactly 0: `Resample` resets every log-weight in
the replication pass (sampler.hh:820-825), `ResampleFribble` rebuilds the
population with log-weight 0 (sampler.hh:509-519), and the downsampling
step of `IterateEssVariable` does the same (sampler.hh:594-604; it is the
shared `downsampleTo`, stated here directly). -/
theorem c3_resample_zero_weights {V : Type} [Inhabited V] (env : SmcEnv V)
    (mode : ResampleType) (fuel : ℕ) (ess : ℚ) (s : SamplerState V)
    (qexp : ℚ → ℚ) (us : ℕ → ℚ) (ps : List (Particle V)) (n : ℕ) :
    (s.particles.length = s.N →
      ∀ p ∈ (Resample env mode s).particles, p.lw = ((0 : ℚ) : WithBot ℚ)) ∧
    (∀ p ∈ (ResampleFribble env fuel ess s).particles,
      p.lw = ((0 : ℚ) : WithBot ℚ)) ∧
    (∀ p ∈ downsampleTo qexp us ps n, p.lw = ((0 : ℚ) : WithBot ℚ)) := by
  refine ⟨?_, ?_, ?_⟩
  · intro hlen p hp
    exact replicatePass_lw _ _ _ hlen p hp
  · intro p hp
    simp only [ResampleFribble, downsampleTo] at hp
    obtain ⟨i, _, rfl⟩ := List.mem_map.mp hp
    rfl
  · intro p hp
    simp only [downsampleTo] at hp
    obtain ⟨i, _, rfl⟩ := List.mem_map.mp hp
    rfl

/-- Witness for C3 at a concrete two-particle sampler. -/
theorem c3_resample_zero_weights_witness :
    ((mkSampler ℕ 2 HistoryType.none).particles.length =
      (mkSampler ℕ 2 HistoryType.none).N) ∧
    (∀ p ∈ (Resample
        ⟨fun _ => ⟨0, 0⟩, fun _ _ _ p => p, fun _ _ _ p => (p, false),
          fun q => q, fun q => q, fun _ => 0, fun t wl => List.replicate wl.length t⟩
        ResampleType.stratified (mkSampler ℕ 2 HistoryType.none)).particles,
      p.lw = ((0 : ℚ) : WithBot ℚ)) := by
  have hlen : (mkSampler ℕ 2 HistoryType.none).particles.length =
      (mkSampler ℕ 2 HistoryType.none).N := by
    simp [mkSampler]
  exact ⟨hlen,
    (c3_resample_zero_weights
      ⟨fun _ => ⟨0, 0⟩, fun _ _ _ p => p, fun _ _ _ p => (p, false),
        fun q => q, fun q => q, fun _ => 0, fun t wl => List.replicate wl.length t⟩
      ResampleType.stratified 0 0 (mkSampler ℕ 2 HistoryType.none)
      (fun q => q) (fun _ => 0) [] 0).1 hlen⟩

/-! ## C1: child counts sum to N

The stratified/systematic counting loop satisfies the invariant: `j` counts
the children assigned so far (`Σ uRSCount = j`), the parent cursor stays in
range (`k ≤ n − 1`) and the running cumulative weight equals
`(Σ_{i ≤ k} w_i)/W`.  When the parent cursor reaches the last particle the
cumulative weight is exactly 1, so the acceptance condition
`cum − u > j/n` holds for every remaining `j` (here `u < 1/n` is the RNG
contract for `Uniform(0, 1/N)`): the loop therefore terminates with `j = n`
within `2n − 1` steps. -/

theorem stratLoop_run (ws : List ℚ) (n : ℕ) (us : ℕ → ℚ) (redraw : Bool)
    (hn : 1 ≤ n) (hlen : ws.length = n) (hpos : 0 < ws.sum)
    (hus : ∀ t, us t < 1 / (n : ℚ)) :
    ∀ (fuel : ℕ) (s : StratState),
      s.j ≤ n → s.k ≤ n - 1 →
      s.counts.length = n → s.counts.sum = s.j →
      s.cum = (ws.take (s.k + 1)).sum / ws.sum →
      (n - s.j) + (n - 1 - s.k) < fuel →
      (stratLoop ws ws.sum n us redraw fuel s).counts.sum = n ∧
        (stratLoop ws ws.sum n us redraw fuel s).counts.length = n := by
  intro fuel
  induction fuel with
  | zero => intro s _ _ _ _ _ hm; omega
  | succ fuel ih =>
    intro s hj hk hclen hcsum hcum hm
    rw [stratLoop]
    by_cases hjlt : s.j < n
    · rw [if_pos hjlt]
      by_cases hacc : s.cum - us s.t > (s.j : ℚ) / (n : ℚ)
      · rw [if_pos hacc]
        have hkc : s.k < s.counts.length := by omega
        refine ih _ ?_ ?_ ?_ ?_ ?_ ?_
        · dsimp only; omega
        · dsimp only; omega
        · dsimp only; simp [List.length_set, hclen]
        · dsimp only
          have := sum_set_nat hkc (s.counts.getD s.k 0 + 1)
          omega
        · dsimp only; exact hcum
        · dsimp only; omega
      · rw [if_neg hacc]
        -- progress: the parent cursor cannot be at the last particle
        have hklt : s.k < n - 1 := by
          rcases Nat.lt_or_ge s.k (n - 1) with h | h
          · exact h
          · exfalso
            have hkeq : s.k = n - 1 := by omega
            have hcum1 : s.cum = 1 := by
              rw [hcum, hkeq]
              have h1 : n - 1 + 1 = n := by omega
              rw [h1, ← hlen, List.take_length, div_self (ne_of_gt hpos)]
            apply hacc
            rw [hcum1]
            have hnq : (0 : ℚ) < n := by
              have h2 : (0 : ℕ) < n := by omega
              exact_mod_cast h2
            have hjq : (s.j : ℚ) + 1 ≤ (n : ℚ) := by exact_mod_cast hjlt
            have h1 : (s.j : ℚ) / n ≤ ((n : ℚ) - 1) / n := by gcongr; linarith
            have h2 : ((n : ℚ) - 1) / n = 1 - 1 / n := by field_simp
            have h3 := hus s.t
            rw [gt_iff_lt]
            linarith
        have hkw : s.k + 1 < ws.length := by omega
        refine ih _ ?_ ?_ ?_ ?_ ?_ ?_
        · dsimp only; omega
        · dsimp only; omega
        · dsimp only; exact hclen
        · dsimp only; exact hcsum
        · dsimp only
          rw [hcum, List.sum_take_succ ws (s.k + 1) hkw, add_div,
            getD_lt_eq 0 hkw]
        · dsimp only; omega
    · rw [if_neg hjlt]
      exact ⟨by omega, hclen⟩

theorem stratCounts_sum (ws : List ℚ) (n : ℕ) (us : ℕ → ℚ) (redraw : Bool)
    (hn : 1 ≤ n) (hlen : ws.length = n) (hpos : 0 < ws.sum)
    (hus : ∀ t, us t < 1 / (n : ℚ)) :
    (stratCounts ws n us redraw).sum = n := by
  have h0 : (0 : ℕ) < ws.length := by omega
  have hinit : ws.getD 0 0 / ws.sum = (ws.take (0 + 1)).sum / ws.sum := by
    rw [List.sum_take_succ ws 0 h0, getD_lt_eq 0 h0]
    simp
  exact (stratLoop_run ws n us redraw hn hlen hpos hus (2 * n)
    { j := 0, k := 0, t := 0, counts := List.replicate n 0,
      cum := ws.getD 0 0 / ws.sum }
    (by dsimp only; omega) (by dsimp only; omega) (by simp) (by simp) hinit
    (by dsimp only; omega)).1

/-! Residual resampling helpers. -/

theorem sum_map_mul_div (l : List ℚ) (c : ℚ) :
    (l.map (fun x => x * c)).sum = l.sum * c := by
  induction l with
  | nil => simp
  | cons x xs ih => simp [ih]; ring

theorem residualFloors_le (ws : List ℚ) (n : ℕ)
    (hnonneg : ∀ w ∈ ws, 0 ≤ w) (hpos : 0 < ws.sum) :
    (residualFloors ws n).sum ≤ n := by
  have hcast : (((residualFloors ws n).sum : ℕ) : ℚ) ≤ (n : ℚ) := by
    rw [residualFloors, Nat.cast_list_sum, List.map_map]
    have hle : ((ws.map (fun w => ((⌊(n : ℚ) * w / ws.sum⌋).toNat : ℚ))).sum) ≤
        (ws.map (fun w => (n : ℚ) * w / ws.sum)).sum := by
      apply List.sum_le_sum
      intro w hw
      have hq : (0 : ℚ) ≤ (n : ℚ) * w / ws.sum := by
        apply div_nonneg
        · exact mul_nonneg (by positivity) (hnonneg w hw)
        · exact le_of_lt hpos
      have h1 : ((⌊(n : ℚ) * w / ws.sum⌋).toNat : ℚ) =
          ((⌊(n : ℚ) * w / ws.sum⌋ : ℤ) : ℚ) := by
        have h0 : (0 : ℤ) ≤ ⌊(n : ℚ) * w / ws.sum⌋ := Int.floor_nonneg.mpr hq
        exact_mod_cast congrArg (Int.cast : ℤ → ℚ) (Int.toNat_of_nonneg h0)
      rw [h1]
      exact Int.floor_le _
    refine le_trans (le_trans (le_of_eq rfl) hle) (le_of_eq ?_)
    have h2 : (ws.map (fun w => (n : ℚ) * w / ws.sum)).sum =
        (ws.map (fun w => w * ((n : ℚ) / ws.sum))).sum := by
      congr 1
      apply List.map_congr_left
      intro w _
      ring
    rw [h2, sum_map_mul_div]
    field_simp
  exact_mod_cast hcast

theorem sum_zipWith_add (a b : List ℕ) (h : a.length = b.length) :
    (a.zipWith (· + ·) b).sum = a.sum + b.sum := by
  induction a generalizing b with
  | nil =>
    cases b with
    | nil => rfl
    | cons y ys => simp at h
  | cons x xs ih =>
    cases b with
    | nil => simp at h
    | cons y ys =>
      simp only [List.zipWith_cons_cons, List.sum_cons]
      have := ih ys (by simpa using h)
      omega

/-- **C1.** For every resampling mode and every population of `N` particles
whose weights have a positive sum, the child-count array `uRSCount` produced
by `Resample` (sampler.hh:707-799) sums to exactly `N`.  The multinomial
draws are constrained by the (spec-modelled) RNG contract
`Σ counts = trials` (spec §4.1); the uniform draws of the
stratified/systematic walk lie in `[0, 1/N)`.  The statement covers all
five mode values (`SMC_RESAMPLE_FRIBBLEBITS` falls into the `default:`
stratified branch of the switch). -/
theorem c1_resample_counts_sum (ws : List ℚ) (n : ℕ)
    (mnom : ℕ → List ℚ → List ℕ) (us : ℕ → ℚ)
    (hlen : ws.length = n) (hn : 1 ≤ n)
    (hnonneg : ∀ w ∈ ws, 0 ≤ w) (hpos : 0 < ws.sum)
    (hmn1 : (mnom n ws).sum = n)
    (hmn2 : (mnom (residualTrials ws n) (residualRemainders ws n)).sum =
      residualTrials ws n)
    (hmn2len : (mnom (residualTrials ws n) (residualRemainders ws n)).length = n)
    (hus : ∀ t, us t < 1 / (n : ℚ)) :
    ∀ mode, (resampleCounts mode ws n mnom us).sum = n := by
  intro mode
  cases mode with
  | multinomial => exact hmn1
  | residual =>
    rw [resampleCounts, sum_zipWith_add _ _ (by
      rw [hmn2len, residualFloors, List.length_map, hlen])]
    rw [hmn2, residualTrials]
    have := residualFloors_le ws n hnonneg hpos
    omega
  | systematic => exact stratCounts_sum ws n us false hn hlen hpos hus
  | stratified => exact stratCounts_sum ws n us true hn hlen hpos hus
  | fribblebits => exact stratCounts_sum ws n us true hn hlen hpos hus

/-- Witness for C1: the uniform two-particle population, a multinomial model
putting all trials on the first slot, and the zero uniform stream. -/
theorem c1_resample_counts_sum_witness :
    (0 : ℚ) < [(1 : ℚ) / 2, 1 / 2].sum ∧
    (resampleCounts ResampleType.stratified [(1 : ℚ) / 2, 1 / 2] 2
      (fun t _ => [t, 0]) (fun _ => 0)).sum = 2 := by
  have hpos : (0 : ℚ) < [(1 : ℚ) / 2, 1 / 2].sum := by norm_num
  refine ⟨hpos, c1_resample_counts_sum [(1 : ℚ) / 2, 1 / 2] 2
    (fun t _ => [t, 0]) (fun _ => 0) rfl (by omega) ?_ hpos (by simp)
    (by simp) (by simp [residualRemainders]) (fun t => by norm_num)
    ResampleType.stratified⟩
  intro w hw
  rcases List.mem_cons.mp hw with rfl | hw2
  · norm_num
  · rcases List.mem_cons.mp hw2 with rfl | hw3
    · norm_num
    · simp at hw3

/-! ## C2: count → index flattening

Facts about the specification-side lists `zeroIdx` (free slots, increasing)
and `surplusPre` (surplus copies, by increasing parent). -/

theorem zeroIdx_mem (c : List ℕ) : ∀ (m x : ℕ),
    x ∈ zeroIdx c m ↔ (x < m ∧ c.getD x 0 = 0) := by
  intro m
  induction m with
  | zero => intro x; simp [zeroIdx]
  | succ m ih =>
    intro x
    rw [zeroIdx, List.mem_append]
    constructor
    · intro h
      rcases h with h | h
      · obtain ⟨hx, hz⟩ := (ih x).mp h
        exact ⟨by omega, hz⟩
      · by_cases hz : c.getD m 0 = 0
        · rw [if_pos hz] at h
          simp at h
          subst h
          exact ⟨by omega, hz⟩
        · rw [if_neg hz] at h
          simp at h
    · rintro ⟨hx, hz⟩
      rcases Nat.lt_or_ge x m with hxm | hxm
      · exact Or.inl ((ih x).mpr ⟨hxm, hz⟩)
      · have hxe : x = m := by omega
        subst hxe
        rw [if_pos hz]
        exact Or.inr (by simp)

theorem zeroIdx_pairwise (c : List ℕ) : ∀ (m : ℕ),
    List.Pairwise (· < ·) (zeroIdx c m) := by
  intro m
  induction m with
  | zero => exact List.Pairwise.nil
  | succ m ih =>
    rw [zeroIdx, List.pairwise_append]
    refine ⟨ih, ?_, ?_⟩
    · by_cases hz : c.getD m 0 = 0
      · rw [if_pos hz]
        simp
      · rw [if_neg hz]
        simp
    · intro x hx y hy
      have hxm : x < m := ((zeroIdx_mem c m x).mp hx).1
      by_cases hz : c.getD m 0 = 0
      · rw [if_pos hz] at hy
        simp at hy
        omega
      · rw [if_neg hz] at hy
        simp at hy

theorem zeroIdx_getD_lt {c : List ℕ} {m t1 t2 : ℕ} (h12 : t1 < t2)
    (h2 : t2 < (zeroIdx c m).length) :
    (zeroIdx c m).getD t1 0 < (zeroIdx c m).getD t2 0 := by
  have hp := zeroIdx_pairwise c m
  have h1 : t1 < (zeroIdx c m).length := by omega
  rw [getD_lt_eq 0 h1, getD_lt_eq 0 h2]
  exact List.pairwise_iff_getElem.mp hp t1 t2 h1 h2 h12

theorem zeroIdx_getD_le_iff {c : List ℕ} {m t1 t2 : ℕ}
    (h1 : t1 < (zeroIdx c m).length) (h2 : t2 < (zeroIdx c m).length) :
    (zeroIdx c m).getD t1 0 ≤ (zeroIdx c m).getD t2 0 ↔ t1 ≤ t2 := by
  constructor
  · intro h
    by_contra hc
    push_neg at hc
    have := zeroIdx_getD_lt hc h1
    omega
  · intro h
    rcases Nat.lt_or_ge t1 t2 with hlt | hge
    · exact le_of_lt (zeroIdx_getD_lt hlt h2)
    · have : t1 = t2 := by omega
      subst this
      exact le_refl _

theorem surplusPre_mem (c : List ℕ) : ∀ (m x : ℕ), x ∈ surplusPre c m →
    x < m ∧ 2 ≤ c.getD x 0 := by
  intro m
  induction m with
  | zero => intro x h; simp [surplusPre] at h
  | succ m ih =>
    intro x h
    rw [surplusPre, List.mem_append] at h
    rcases h with h | h
    · obtain ⟨h1, h2⟩ := ih x h
      exact ⟨by omega, h2⟩
    · have hxm := List.eq_of_mem_replicate h
      have hrep : c.getD m 0 - 1 ≠ 0 := by
        intro h0
        rw [h0] at h
        simp at h
      subst hxm
      exact ⟨by omega, by omega⟩

theorem surplusPre_sorted (c : List ℕ) : ∀ (m : ℕ),
    List.Pairwise (· ≤ ·) (surplusPre c m) := by
  intro m
  induction m with
  | zero => exact List.Pairwise.nil
  | succ m ih =>
    rw [surplusPre, List.pairwise_append]
    refine ⟨ih, List.pairwise_replicate.mpr (Or.inr (le_refl m)), ?_⟩
    intro x hx y hy
    have hxm : x < m := (surplusPre_mem c m x hx).1
    have hym : y = m := List.eq_of_mem_replicate hy
    omega

theorem surplusPre_getD_le {c : List ℕ} {m t1 t2 : ℕ} (h12 : t1 ≤ t2)
    (h2 : t2 < (surplusPre c m).length) :
    (surplusPre c m).getD t1 0 ≤ (surplusPre c m).getD t2 0 := by
  rcases Nat.lt_or_ge t1 t2 with hlt | hge
  · have h1 : t1 < (surplusPre c m).length := by omega
    rw [getD_lt_eq 0 h1, getD_lt_eq 0 h2]
    exact List.pairwise_iff_getElem.mp (surplusPre_sorted c m) t1 t2 h1 h2 hlt
  · have : t1 = t2 := by omega
    subst this
    exact le_refl _

theorem surplusPre_length_mono (c : List ℕ) {a b : ℕ} (h : a ≤ b) :
    (surplusPre c a).length ≤ (surplusPre c b).length := by
  induction b with
  | zero =>
    have : a = 0 := by omega
    subst this
    exact le_refl _
  | succ b ih =>
    rcases Nat.lt_or_ge a (b + 1) with hab | hab
    · have h1 := ih (by omega)
      rw [surplusPre, List.length_append]
      omega
    · have : a = b + 1 := by omega
      subst this
      exact le_refl _

theorem surplusPre_count (c : List ℕ) (i : ℕ) : ∀ (m : ℕ),
    (surplusPre c m).count i = if i < m then c.getD i 0 - 1 else 0 := by
  intro m
  induction m with
  | zero => simp [surplusPre]
  | succ m ih =>
    rw [surplusPre, List.count_append, ih, List.count_replicate]
    by_cases hieq : i = m
    · subst hieq
      rw [if_neg (by omega : ¬i < i), if_pos (by omega : i < i + 1)]
      simp
    · have hbeq : (m == i) = false := beq_eq_false_iff_ne.mpr (Ne.symm hieq)
      rw [hbeq]
      by_cases him : i < m
      · rw [if_pos him, if_pos (by omega : i < m + 1)]
        simp
      · rw [if_neg him, if_neg (by omega : ¬i < m + 1)]
        simp

theorem sum_range_getD : ∀ (c : List ℕ),
    ((List.range c.length).map (fun p => c.getD p 0)).sum = c.sum := by
  intro c
  induction c with
  | nil => simp
  | cons x xs ih =>
    rw [List.length_cons, List.range_succ_eq_map, List.map_cons, List.map_map]
    simp only [List.getD_cons_zero, List.sum_cons]
    have h1 : ((List.range xs.length).map ((fun p => (x :: xs).getD p 0) ∘ Nat.succ)).sum
        = ((List.range xs.length).map (fun p => xs.getD p 0)).sum := rfl
    rw [h1, ih]

theorem surplus_zero_balance (c : List ℕ) : ∀ (m : ℕ),
    (surplusPre c m).length + m =
      ((List.range m).map (fun p => c.getD p 0)).sum + (zeroIdx c m).length := by
  intro m
  induction m with
  | zero => simp [surplusPre, zeroIdx]
  | succ m ih =>
    rw [surplusPre, zeroIdx, List.length_append, List.length_append,
      List.range_succ, List.map_append, List.sum_append]
    simp only [List.map_cons, List.map_nil, List.sum_cons, List.sum_nil,
      List.length_replicate]
    by_cases hz : c.getD m 0 = 0
    · rw [if_pos hz, hz]
      simp only [List.length_cons, List.length_nil]
      omega
    · rw [if_neg hz]
      simp only [List.length_nil]
      omega

theorem surplus_eq_zero_length (c : List ℕ) (n : ℕ) (hlen : c.length = n)
    (hsum : c.sum = n) :
    (surplusPre c n).length = (zeroIdx c n).length := by
  have hb := surplus_zero_balance c n
  rw [← hlen, sum_range_getD, hlen, hsum] at hb
  omega

/-! The free-slot scan: under the loop invariant, `findFree` returns
exactly the `D`-th free slot. -/

theorem findFree_spec (c : List ℕ) (n : ℕ) :
    ∀ (fuel : ℕ) (c1 : List ℕ) (j D : ℕ),
      c1.length = n →
      (∀ p, c1.getD p 0 = 0 ↔ c.getD p 0 = 0) →
      D < (zeroIdx c n).length →
      (∀ t, t < (zeroIdx c n).length → ((zeroIdx c n).getD t 0 < j ↔ t < D)) →
      (zeroIdx c n).getD D 0 - j < fuel →
      findFree c1 j = (zeroIdx c n).getD D 0 := by
  intro fuel
  induction fuel with
  | zero =>
    intro c1 j D _ _ hD hA6 hfuel
    -- the target slot is ≥ j, so fuel 0 is impossible unless j = target
    have hjle : j ≤ (zeroIdx c n).getD D 0 := by
      by_contra hc
      push_neg at hc
      have := (hA6 D hD).mp hc
      omega
    omega
  | succ fuel ih =>
    intro c1 j D hlen1 hzeq hD hA6 hfuel
    have hjle : j ≤ (zeroIdx c n).getD D 0 := by
      by_contra hc
      push_neg at hc
      have := (hA6 D hD).mp hc
      omega
    have hzD : (zeroIdx c n).getD D 0 ∈ zeroIdx c n := getD_mem 0 hD
    obtain ⟨hzDn, hzDz⟩ := (zeroIdx_mem c n _).mp hzD
    rcases Nat.eq_or_lt_of_le hjle with hje | hjlt
    · -- j is the target free slot
      rw [findFree]
      have hjn : j < c1.length := by omega
      rw [dif_pos hjn, if_pos (by rw [hzeq]; rw [hje]; exact hzDz)]
      exact hje
    · -- j is not yet free: advance
      have hjz : c.getD j 0 ≠ 0 := by
        intro hjz
        have hjmem : j ∈ zeroIdx c n := (zeroIdx_mem c n j).mpr ⟨by omega, hjz⟩
        obtain ⟨t, ht, hgt⟩ := mem_imp_getD 0 hjmem
        have h1 := (hA6 t ht)
        rw [hgt] at h1
        rcases Nat.lt_or_ge t D with htD | htD
        · have := h1.mpr htD
          omega
        · have hle : (zeroIdx c n).getD D 0 ≤ (zeroIdx c n).getD t 0 :=
            (zeroIdx_getD_le_iff hD ht).mpr htD
          rw [hgt] at hle
          omega
      rw [findFree]
      have hjn : j < c1.length := by omega
      rw [dif_pos hjn, if_neg (by rw [hzeq]; exact hjz)]
      exact ih c1 (j + 1) D hlen1 hzeq hD
        (by
          intro t ht
          constructor
          · intro h
            have hne : (zeroIdx c n).getD t 0 ≠ j := by
              intro he
              have hmem := (zeroIdx_mem c n _).mp (getD_mem 0 ht)
              rw [he] at hmem
              exact hjz hmem.2
            exact (hA6 t ht).mp (by omega)
          · intro h
            have := (hA6 t ht).mpr h
            omega)
        (by omega)

/-! The surplus-distribution loop: starting with `D` free slots already
filled (all of them below the cursor `j`), distributing the `v − 1` surplus
copies of parent `i` fills exactly the free slots `D, …, D + v − 2` with `i`,
leaves every other index-array entry alone, decrements `uRSCount[i]` to 1,
and leaves the cursor just past the last slot filled. -/

theorem surplusLoop_spec (c : List ℕ) (n : ℕ) (i : ℕ) :
    ∀ (v : ℕ), 1 ≤ v → ∀ (c1 idx1 : List ℕ) (j D : ℕ),
      c1.length = n → idx1.length = n →
      (∀ p, c1.getD p 0 = 0 ↔ c.getD p 0 = 0) →
      c1.getD i 0 = v →
      (∀ t, t < (zeroIdx c n).length →
        ((zeroIdx c n).getD t 0 < j ↔ t < D)) →
      D + (v - 1) ≤ (zeroIdx c n).length →
      ((surplusLoop c1 idx1 i j).1.getD i 0 = 1 ∧
        (∀ p, p ≠ i → (surplusLoop c1 idx1 i j).1.getD p 0 = c1.getD p 0) ∧
        (surplusLoop c1 idx1 i j).1.length = n) ∧
      ((surplusLoop c1 idx1 i j).2.1.length = n ∧
        (∀ p, c.getD p 0 ≠ 0 →
          (surplusLoop c1 idx1 i j).2.1.getD p 0 = idx1.getD p 0) ∧
        (∀ t, t < D →
          (surplusLoop c1 idx1 i j).2.1.getD ((zeroIdx c n).getD t 0) 0 =
            idx1.getD ((zeroIdx c n).getD t 0) 0) ∧
        (∀ t, D ≤ t → t < D + (v - 1) →
          (surplusLoop c1 idx1 i j).2.1.getD ((zeroIdx c n).getD t 0) 0 = i)) ∧
      (∀ t, t < (zeroIdx c n).length →
        ((zeroIdx c n).getD t 0 < (surplusLoop c1 idx1 i j).2.2 ↔
          t < D + (v - 1))) := by
  intro v
  induction v with
  | zero => intro h; omega
  | succ v ih =>
    intro _ c1 idx1 j D hlen1 hilen1 hzeq hvi hA6 hcap
    rcases Nat.eq_zero_or_pos v with hv0 | hv1
    · -- base: one remaining child, the loop body does not fire
      subst hv0
      rw [surplusLoop, dif_neg (by rw [hvi]; omega)]
      refine ⟨⟨hvi, fun p _ => rfl, hlen1⟩,
        ⟨hilen1, fun p _ => rfl, fun t _ => rfl, fun t h1 h2 => by omega⟩, ?_⟩
      intro t ht
      dsimp only
      have := hA6 t ht
      omega
    · -- step: distribute one surplus copy of i, then recurse
      have hige : 2 ≤ c1.getD i 0 := by omega
      have hilt : i < c1.length := by
        by_contra hc
        push_neg at hc
        rw [getD_oob 0 hc] at hvi
        omega
      have hD : D < (zeroIdx c n).length := by omega
      have hff : findFree c1 j = (zeroIdx c n).getD D 0 :=
        findFree_spec c n ((zeroIdx c n).getD D 0 + 1) c1 j D hlen1 hzeq hD hA6
          (by omega)
      set z := (zeroIdx c n).getD D 0 with hz
      have hzZ : z ∈ zeroIdx c n := getD_mem 0 hD
      have hzn : z < n := ((zeroIdx_mem c n z).mp hzZ).1
      have hzz : c.getD z 0 = 0 := ((zeroIdx_mem c n z).mp hzZ).2
      rw [surplusLoop, dif_pos (by rw [hvi]; omega)]
      simp only [hff, ← hz, hvi, Nat.add_sub_cancel]
      -- apply the induction hypothesis at (c1.set i v, idx1.set z i, z+1, D+1)
      have hres := ih hv1 (c1.set i v) (idx1.set z i) (z + 1) (D + 1)
        (by simp [List.length_set, hlen1])
        (by simp [List.length_set, hilen1])
        (by
          intro p
          by_cases hpi : p = i
          · subst hpi
            rw [getD_set_same 0 hilt]
            constructor
            · intro h; omega
            · intro h
              exfalso
              have := (hzeq p).mpr h
              omega
          · rw [getD_set_diff 0 (fun he => hpi he.symm)]
            exact hzeq p)
        (getD_set_same 0 hilt v)
        (by
          intro t ht
          constructor
          · intro h
            have hle : (zeroIdx c n).getD t 0 ≤ z := by omega
            rw [hz] at hle
            have := (zeroIdx_getD_le_iff ht hD).mp hle
            omega
          · intro h
            have hle : t ≤ D := by omega
            have := (zeroIdx_getD_le_iff ht hD).mpr hle
            omega)
        (by omega)
      obtain ⟨⟨hr1, hr2, hr3⟩, ⟨hr4, hr5, hr6, hr7⟩, hr8⟩ := hres
      refine ⟨⟨hr1, ?_, hr3⟩, ⟨hr4, ?_, ?_, ?_⟩, ?_⟩
      · intro p hpi
        rw [hr2 p hpi, getD_set_diff 0 (fun he => hpi he.symm)]
      · intro p hp
        have hpz : z ≠ p := by
          intro he
          rw [he] at hzz
          exact hp hzz
        rw [hr5 p hp, getD_set_diff 0 hpz]
      · intro t ht
        have htD : t < D + 1 := by omega
        have hne : z ≠ (zeroIdx c n).getD t 0 := by
          intro he
          have := zeroIdx_getD_lt ht hD
          rw [hz] at he
          omega
        rw [hr6 t htD, getD_set_diff 0 hne]
      · intro t ht1 ht2
        rcases Nat.eq_or_lt_of_le ht1 with hte | htlt
        · rw [← hte, hr6 D (by omega), ← hz,
            getD_set_same 0 (by omega : z < idx1.length)]
        · exact hr7 t (by omega) (by omega)
      · intro t ht
        rw [hr8 t ht]
        omega

/-! The outer flattening loop: processing slots `0, …, i − 1` has written
`uRSIndices[p] = p` at every retained slot `p < i` and has filled the first
`(surplusPre c i).length` free slots with the surplus copies of the parents
below `i`, in order. -/

theorem surplusPre_succ_length (c : List ℕ) (i : ℕ) :
    (surplusPre c (i + 1)).length =
      (surplusPre c i).length + (c.getD i 0 - 1) := by
  rw [surplusPre, List.length_append, List.length_replicate]

theorem surplusPre_succ_getD_left (c : List ℕ) (i t : ℕ)
    (h : t < (surplusPre c i).length) :
    (surplusPre c (i + 1)).getD t 0 = (surplusPre c i).getD t 0 := by
  rw [surplusPre, List.getD_append _ _ _ _ h]

theorem surplusPre_succ_getD_right (c : List ℕ) (i t : ℕ)
    (h1 : (surplusPre c i).length ≤ t)
    (h2 : t < (surplusPre c i).length + (c.getD i 0 - 1)) :
    (surplusPre c (i + 1)).getD t 0 = i := by
  rw [surplusPre, List.getD_append_right _ _ _ _ h1]
  have hlt : t - (surplusPre c i).length < c.getD i 0 - 1 := by omega
  rw [getD_lt_eq 0 (by simpa using hlt), List.getElem_replicate]

theorem flattenLoop_run (c : List ℕ) (n : ℕ) (hn : c.length = n)
    (hcap : (surplusPre c n).length ≤ (zeroIdx c n).length) :
    ∀ (m i j : ℕ) (c1 idx1 : List ℕ), i + m = n →
      c1.length = n → idx1.length = n →
      (∀ p, p < i → c1.getD p 0 = min (c.getD p 0) 1) →
      (∀ p, i ≤ p → c1.getD p 0 = c.getD p 0) →
      (∀ p, p < i → 1 ≤ c.getD p 0 → idx1.getD p 0 = p) →
      (∀ t, t < (surplusPre c i).length →
        idx1.getD ((zeroIdx c n).getD t 0) 0 = (surplusPre c i).getD t 0) →
      (∀ t, t < (zeroIdx c n).length →
        ((zeroIdx c n).getD t 0 < j ↔ t < (surplusPre c i).length)) →
      ((flattenLoop n c1 idx1 i j).2.1.length = n ∧
        (∀ p, p < n → 1 ≤ c.getD p 0 →
          (flattenLoop n c1 idx1 i j).2.1.getD p 0 = p) ∧
        (∀ t, t < (surplusPre c n).length →
          (flattenLoop n c1 idx1 i j).2.1.getD ((zeroIdx c n).getD t 0) 0 =
            (surplusPre c n).getD t 0)) := by
  intro m
  induction m with
  | zero =>
    intro i j c1 idx1 him hlen1 hilen1 hA2 hA3 hA4 hA5 hA6
    have hie : i = n := by omega
    subst hie
    rw [flattenLoop, if_neg (by omega)]
    exact ⟨hilen1, fun p hp hc => hA4 p hp hc, fun t ht => hA5 t ht⟩
  | succ m ihm =>
    intro i j c1 idx1 him hlen1 hilen1 hA2 hA3 hA4 hA5 hA6
    have hilt : i < n := by omega
    rw [flattenLoop, if_pos hilt]
    by_cases hci : 0 < c1.getD i 0
    · rw [if_pos hci]
      have hcieq : c1.getD i 0 = c.getD i 0 := hA3 i (le_refl i)
      have hcige : 1 ≤ c.getD i 0 := by omega
      -- the surplus loop for slot i
      have hsp := surplusLoop_spec c n i (c.getD i 0) hcige c1 (idx1.set i i) j
        ((surplusPre c i).length) hlen1 (by simp [List.length_set, hilen1])
        (by
          intro p
          by_cases hpi : p < i
          · rw [hA2 p hpi]
            omega
          · by_cases hpe : p = i
            · subst hpe
              rw [hcieq]
            · rw [hA3 p (by omega)])
        hcieq hA6
        (by
          have h1 : (surplusPre c i).length + (c.getD i 0 - 1) =
              (surplusPre c (i + 1)).length := (surplusPre_succ_length c i).symm
          have h2 : (surplusPre c (i + 1)).length ≤ (surplusPre c n).length :=
            surplusPre_length_mono c (by omega)
          omega)
      obtain ⟨⟨hr1, hr2, hr3⟩, ⟨hr4, hr5, hr6, hr7⟩, hr8⟩ := hsp
      exact ihm (i + 1) _ _ _ (by omega) hr3 hr4
        (by
          intro p hp
          rcases Nat.lt_or_ge p i with hpi | hpi
          · rw [hr2 p (by omega), hA2 p hpi]
          · have hpe : p = i := by omega
            subst hpe
            rw [hr1]
            omega)
        (by
          intro p hp
          rw [hr2 p (by omega), hA3 p (by omega)])
        (by
          intro p hp hcp
          rcases Nat.lt_or_ge p i with hpi | hpi
          · rw [hr5 p (by omega), getD_set_diff 0 (by omega : i ≠ p)]
            exact hA4 p hpi hcp
          · have hpe : p = i := by omega
            subst hpe
            rw [hr5 p (by omega), getD_set_same 0 (by omega : p < idx1.length)]
        )
        (by
          intro t ht
          rw [surplusPre_succ_length c i] at ht
          have htZ : t < (zeroIdx c n).length := by
            have h2 : (surplusPre c (i + 1)).length ≤ (surplusPre c n).length :=
              surplusPre_length_mono c (by omega)
            rw [surplusPre_succ_length c i] at h2
            omega
          rcases Nat.lt_or_ge t (surplusPre c i).length with htl | htl
          · have hne : i ≠ (zeroIdx c n).getD t 0 := by
              have hmem := (zeroIdx_mem c n _).mp (getD_mem 0 htZ)
              intro he
              rw [← he] at hmem
              omega
            rw [surplusPre_succ_getD_left c i t htl, hr6 t htl,
              getD_set_diff 0 hne]
            exact hA5 t htl
          · rw [surplusPre_succ_getD_right c i t htl ht]
            exact hr7 t htl (by omega)
        )
        (by
          intro t ht
          rw [hr8 t ht, surplusPre_succ_length c i])
    · rw [if_neg hci]
      have hcz : c.getD i 0 = 0 := by
        have := hA3 i (le_refl i)
        omega
      have hsur : surplusPre c (i + 1) = surplusPre c i := by
        rw [surplusPre, hcz]
        simp
    -- recurse with i+1; the surplus list is unchanged
      exact ihm (i + 1) j c1 idx1 (by omega) hlen1 hilen1
        (by
          intro p hp
          rcases Nat.lt_or_ge p i with hpi | hpi
          · exact hA2 p hpi
          · have hpe : p = i := by omega
            subst hpe
            rw [hA3 p (le_refl p), hcz]
            simp
        )
        (fun p hp => hA3 p (by omega))
        (by
          intro p hp hcp
          rcases Nat.lt_or_ge p i with hpi | hpi
          · exact hA4 p hpi hcp
          · have hpe : p = i := by omega
            subst hpe
            rw [hcz] at hcp
            omega)
        (by rw [hsur]; exact hA5)
        (by rw [hsur]; exact hA6)

/-- The characterisation of the count→index flattening
(sampler.hh:804-813): retained slots map to themselves and the `t`-th free
slot receives the `t`-th surplus copy; when `Σ c = N` the free slots and the
surplus copies are in bijection. -/
theorem flatten_char (c idx0 : List ℕ) (n : ℕ) (hlen : c.length = n)
    (hsum : c.sum = n) (hidx : idx0.length = n) :
    (flattenCounts n c idx0).2.length = n ∧
    (∀ p, p < n → 1 ≤ c.getD p 0 → (flattenCounts n c idx0).2.getD p 0 = p) ∧
    (∀ t, t < (surplusPre c n).length →
      (flattenCounts n c idx0).2.getD ((zeroIdx c n).getD t 0) 0 =
        (surplusPre c n).getD t 0) ∧
    (surplusPre c n).length = (zeroIdx c n).length := by
  have heq := surplus_eq_zero_length c n hlen hsum
  have h := flattenLoop_run c n hlen (le_of_eq heq) n 0 0 c idx0 (by omega)
    hlen hidx (fun p hp => by omega) (fun p _ => rfl) (fun p hp => by omega)
    (fun t ht => by simp [surplusPre] at ht)
    (fun t ht => by simp [surplusPre])
  exact ⟨h.1, h.2.1, h.2.2, heq⟩

theorem countP_corr (f : ℕ → ℕ) (i : ℕ) : ∀ (Z S : List ℕ),
    Z.length = S.length →
    (∀ t, t < Z.length → f (Z.getD t 0) = S.getD t 0) →
    Z.countP (fun z => f z == i) = S.count i := by
  intro Z
  induction Z with
  | nil =>
    intro S h _
    cases S with
    | nil => simp
    | cons s S2 => simp at h
  | cons z Z2 ih =>
    intro S h hcorr
    cases S with
    | nil => simp at h
    | cons s S2 =>
      have h0 : f z = s := by
        have := hcorr 0 (by simp)
        simpa using this
      have hrest := ih S2 (by simpa using h) (by
        intro t ht
        have := hcorr (t + 1) (by simpa using Nat.succ_lt_succ ht)
        simpa using this)
      rw [List.countP_cons, hrest, List.count_cons, h0]

/-- **C2.** For every child-count array `c` with `Σ c_i = N`, the
count-to-index flattening in `Resample` (sampler.hh:804-813) produces
indices `π` such that: (a) `π[i] = i` whenever `c_i ≥ 1`; (b) every slot
`j` with `c_j = 0` receives a surplus copy of a parent with `c ≥ 2`
(in particular `π[j] ≠ j`), the parents assigned to the free slots are
nondecreasing as `j` scans upward (the monotone-cursor discipline), and
each parent `i` receives exactly `c_i − 1` free slots; and (c) in-place
safety: for every `i`, either `π[i] = i` or `c_{π[i]} ≥ 2`, so the source
slot read at step `i` of the replication pass is never one that an earlier
step overwrote. -/
theorem c2_flatten (c idx0 : List ℕ) (n : ℕ)
    (hlen : c.length = n) (hsum : c.sum = n) (hidx : idx0.length = n) :
    (∀ i, i < n → 1 ≤ c.getD i 0 → (flattenCounts n c idx0).2.getD i 0 = i) ∧
    (∀ j, j < n → c.getD j 0 = 0 →
      2 ≤ c.getD ((flattenCounts n c idx0).2.getD j 0) 0 ∧
        (flattenCounts n c idx0).2.getD j 0 ≠ j) ∧
    (∀ j1 j2, j1 < j2 → j2 < n → c.getD j1 0 = 0 → c.getD j2 0 = 0 →
      (flattenCounts n c idx0).2.getD j1 0 ≤
        (flattenCounts n c idx0).2.getD j2 0) ∧
    (∀ i, i < n →
      (zeroIdx c n).countP
        (fun z => (flattenCounts n c idx0).2.getD z 0 == i) =
        c.getD i 0 - 1) ∧
    (∀ i, i < n → (flattenCounts n c idx0).2.getD i 0 = i ∨
      2 ≤ c.getD ((flattenCounts n c idx0).2.getD i 0) 0) := by
  obtain ⟨hL, hA, hChar, hEq⟩ := flatten_char c idx0 n hlen hsum hidx
  have hfree : ∀ j, j < n → c.getD j 0 = 0 →
      2 ≤ c.getD ((flattenCounts n c idx0).2.getD j 0) 0 ∧
        (flattenCounts n c idx0).2.getD j 0 ≠ j := by
    intro j hj hcj
    have hjmem : j ∈ zeroIdx c n := (zeroIdx_mem c n j).mpr ⟨hj, hcj⟩
    obtain ⟨t, ht, hgt⟩ := mem_imp_getD 0 hjmem
    have htS : t < (surplusPre c n).length := by omega
    have hpi : (flattenCounts n c idx0).2.getD j 0 = (surplusPre c n).getD t 0 := by
      rw [← hgt]
      exact hChar t htS
    have hmem : (surplusPre c n).getD t 0 ∈ surplusPre c n := getD_mem 0 htS
    have hsp := surplusPre_mem c n _ hmem
    constructor
    · rw [hpi]
      exact hsp.2
    · intro he
      have hje : j = (surplusPre c n).getD t 0 := by rw [← he, hpi]
      rw [← hje] at hsp
      omega
  refine ⟨hA, hfree, ?_, ?_, ?_⟩
  · intro j1 j2 h12 hj2 hz1 hz2
    obtain ⟨t1, ht1, hgt1⟩ := mem_imp_getD 0 ((zeroIdx_mem c n j1).mpr ⟨by omega, hz1⟩)
    obtain ⟨t2, ht2, hgt2⟩ := mem_imp_getD 0 ((zeroIdx_mem c n j2).mpr ⟨hj2, hz2⟩)
    have ht12 : t1 ≤ t2 := by
      by_contra hc
      push_neg at hc
      have := zeroIdx_getD_lt hc ht1
      omega
    rw [← hgt1, ← hgt2, hChar t1 (by omega), hChar t2 (by omega)]
    exact surplusPre_getD_le ht12 (by omega)
  · intro i hi
    rw [countP_corr (fun z => (flattenCounts n c idx0).2.getD z 0) i
      (zeroIdx c n) (surplusPre c n) hEq.symm
      (fun t ht => hChar t (by omega)),
      surplusPre_count c i n, if_pos hi]
  · intro i hi
    by_cases hci : 1 ≤ c.getD i 0
    · exact Or.inl (hA i hi hci)
    · exact Or.inr (hfree i hi (by omega)).1

/-- Witness for C2 on the concrete counts `[2, 0]` (slot 0 keeps itself and
the free slot 1 receives the surplus copy of parent 0). -/
theorem c2_flatten_witness :
    ([2, 0] : List ℕ).sum = 2 ∧
    (flattenCounts 2 [2, 0] [7, 7]).2.getD 0 0 = 0 ∧
    (flattenCounts 2 [2, 0] [7, 7]).2.getD 1 0 = 0 := by
  have h := c2_flatten [2, 0] [7, 7] 2 rfl (by decide) rfl
  refine ⟨by decide, h.1 0 (by omega) (by decide), ?_⟩
  have hb := (h.2.1 1 (by omega) (by decide)).1
  cases hx : ((flattenCounts 2 [2, 0] [7, 7]).2.getD 1 0) with
  | zero => rfl
  | succ x =>
    rw [hx] at hb
    cases x with
    | zero =>
      rw [List.getD_cons_succ, List.getD_cons_zero] at hb
      omega
    | succ y =>
      rw [getD_oob 0 (by simp)] at hb
      omega

/-! ## C5: history round-trip -/

theorem iterateEssCore_fields {V : Type} [Inhabited V] (env : SmcEnv V)
    (fuel : ℕ) (s : SamplerState V) :
    (iterateEssCore env fuel s).1.history = s.history ∧
    (iterateEssCore env fuel s).1.N = s.N ∧
    (iterateEssCore env fuel s).1.htHistoryMode = s.htHistoryMode ∧
    (iterateEssCore env fuel s).1.T = s.T + 1 := by
  unfold iterateEssCore
  by_cases hess : essOf env (normalizeStep (MoveParticles env (s.T + 1)
      s.particles)) < s.dResampleThreshold <;>
  by_cases hmode : s.rtResampleMode = ResampleType.fribblebits <;>
    simp [hess, hmode, Resample, ResampleFribble, mcmcStep]

theorem iterateEssCore_nResampled_of_not_lt {V : Type} [Inhabited V]
    (env : SmcEnv V) (fuel : ℕ) (s : SamplerState V)
    (h : ¬essOf env (normalizeStep (MoveParticles env (s.T + 1) s.particles)) <
      s.dResampleThreshold) :
    (iterateEssCore env fuel s).1.nResampled = 0 := by
  unfold iterateEssCore
  by_cases hmode : s.rtResampleMode = ResampleType.fribblebits <;>
    simp [h, hmode, mcmcStep]

theorem iterateBack_cons {V : Type} (s : SamplerState V) (snap : Snapshot V)
    (rest : List (Snapshot V)) (hht : ¬s.htHistoryMode = HistoryType.none)
    (hh : s.history = snap :: rest) :
    (IterateBack s).1 =
      { s with
          N := snap.N
          particles := snap.particles
          nAccepted := snap.nAccepted
          history := rest
          T := s.T - 1 } := by
  rw [IterateBack, if_neg hht, hh]

/-- **C5.** For a sampler with history mode enabled, if an `IterateEss` call
did not resample (`nResampled = 0`), then calling `IterateBack` immediately
afterwards restores `N`, the particle vector and `nAccepted` to their
values immediately before the `IterateEss` call, and decrements `T` back to
its pre-iterate value (sampler.hh:624-634, 382-391: `IterateEss` pushes the
pre-move snapshot and `IterateBack` pops it). -/
theorem c5_roundtrip {V : Type} [Inhabited V] (env : SmcEnv V) (fuel : ℕ)
    (s : SamplerState V) (hht : s.htHistoryMode = HistoryType.ram)
    (hnr : (IterateEss env fuel s).1.nResampled = 0) :
    (IterateBack (IterateEss env fuel s).1).1.N = s.N ∧
    (IterateBack (IterateEss env fuel s).1).1.particles = s.particles ∧
    (IterateBack (IterateEss env fuel s).1).1.nAccepted = s.nAccepted ∧
    (IterateBack (IterateEss env fuel s).1).1.T = s.T := by
  have hne : ¬s.htHistoryMode = HistoryType.none := by
    rw [hht]
    intro hc
    exact HistoryType.noConfusion hc
  have hIE : IterateEss env fuel s = iterateEssCore env fuel (pushHistory s) := by
    rw [IterateEss, if_neg hne]
  obtain ⟨hh, hN, hm, hT⟩ := iterateEssCore_fields env fuel (pushHistory s)
  have hh2 : (iterateEssCore env fuel (pushHistory s)).1.history =
      (⟨s.N, s.particles, s.nAccepted, s.nResampled != 0⟩ : Snapshot V) ::
        s.history := hh
  have hm2 : ¬(iterateEssCore env fuel (pushHistory s)).1.htHistoryMode =
      HistoryType.none := by
    rw [hm]
    exact hne
  rw [hIE, iterateBack_cons _ _ _ hm2 hh2]
  refine ⟨rfl, rfl, rfl, ?_⟩
  show (iterateEssCore env fuel (pushHistory s)).1.T - 1 = s.T
  rw [hT]
  rfl

/-- Witness for C5: one particle with log-weight 0, identity kernels,
`exp ≡ 1`; the ESS is 1 ≥ threshold 1/2, so no resampling occurs, and the
round-trip restores the initial state components. -/
theorem c5_roundtrip_witness :
    ((mkSampler ℕ 1 HistoryType.ram).htHistoryMode = HistoryType.ram ∧
      (IterateEss envW 0 (mkSampler ℕ 1 HistoryType.ram)).1.nResampled = 0) ∧
    (IterateBack (IterateEss envW 0 (mkSampler ℕ 1 HistoryType.ram)).1).1.particles =
      (mkSampler ℕ 1 HistoryType.ram).particles := by
  have hht : (mkSampler ℕ 1 HistoryType.ram).htHistoryMode = HistoryType.ram := rfl
  have hcond : ¬essOf envW (normalizeStep (MoveParticles envW
      ((pushHistory (mkSampler ℕ 1 HistoryType.ram)).T + 1)
      (pushHistory (mkSampler ℕ 1 HistoryType.ram)).particles)) <
      (pushHistory (mkSampler ℕ 1 HistoryType.ram)).dResampleThreshold := by
    have h1 : essOf envW (normalizeStep (MoveParticles envW
        ((pushHistory (mkSampler ℕ 1 HistoryType.ram)).T + 1)
        (pushHistory (mkSampler ℕ 1 HistoryType.ram)).particles)) = (1 : ℚ) := rfl
    have h2 : (pushHistory (mkSampler ℕ 1 HistoryType.ram)).dResampleThreshold =
        (1 / 2 : ℚ) * 1 := rfl
    rw [h1, h2]
    norm_num
  have hnr : (IterateEss envW 0 (mkSampler ℕ 1 HistoryType.ram)).1.nResampled = 0 := by
    rw [IterateEss, if_neg (by intro hc; exact HistoryType.noConfusion hc)]
    exact iterateEssCore_nResampled_of_not_lt envW 0 _ hcond
  exact ⟨⟨hht, hnr⟩,
    (c5_roundtrip envW 0 (mkSampler ℕ 1 HistoryType.ram) hht hnr).2.1⟩

/-! ## C7: population size and time index -/

theorem moveNorm_length {V : Type} (env : SmcEnv V) (t : ℕ)
    (ps : List (Particle V)) :
    (normalizeStep (MoveParticles env t ps)).length = ps.length := by
  simp [normalizeStep, MoveParticles]

theorem countsToIndices_length (counts : List ℕ) (m : ℕ) :
    (countsToIndices counts m).length = m := by
  rw [countsToIndices, List.length_take, List.length_append,
    List.length_replicate]
  omega

theorem SampleSystematic_length (ws : List ℚ) (m : ℕ) (us : ℕ → ℚ)
    (b : Bool) : (SampleSystematic ws m us b).length = m := by
  rw [SampleSystematic]
  exact countsToIndices_length _ _

theorem downsampleTo_length {V : Type} [Inhabited V] (qexp : ℚ → ℚ)
    (us : ℕ → ℚ) (ps : List (Particle V)) (n : ℕ) :
    (downsampleTo qexp us ps n).length = n := by
  rw [downsampleTo, List.length_map, SampleStratified]
  exact SampleSystematic_length _ _ _ _

theorem Resample_particles_length {V : Type} [Inhabited V] (env : SmcEnv V)
    (mode : ResampleType) (s : SamplerState V) :
    (Resample env mode s).particles.length = s.particles.length := by
  simp only [Resample]
  exact replicatePass_length _ _ _

theorem ResampleFribble_particles_length {V : Type} [Inhabited V]
    (env : SmcEnv V) (fuel : ℕ) (ess : ℚ) (s : SamplerState V) :
    (ResampleFribble env fuel ess s).particles.length = s.N := by
  simp only [ResampleFribble]
  exact downsampleTo_length _ _ _ _

theorem iterateEssCore_particles_length {V : Type} [Inhabited V]
    (env : SmcEnv V) (fuel : ℕ) (s : SamplerState V)
    (hlen : s.particles.length = s.N) :
    (iterateEssCore env fuel s).1.particles.length = s.N := by
  unfold iterateEssCore
  by_cases hess : essOf env (normalizeStep (MoveParticles env (s.T + 1)
      s.particles)) < s.dResampleThreshold <;>
  by_cases hmode : s.rtResampleMode = ResampleType.fribblebits <;>
    simp [hess, hmode, mcmcStep, ResampleFribble_particles_length,
      Resample_particles_length, moveNorm_length, replicatePass_length,
      downsampleTo_length, hlen]

theorem fribbleStep_length {V : Type} (env : SmcEnv V)
    (start : List (Particle V)) (t pass : ℕ) (acc : List (Particle V))
    (gmax : WithBot ℚ) :
    (fribbleStep env start t pass acc gmax).1.length =
      acc.length + start.length := by
  unfold fribbleStep
  dsimp only
  rw [apply_ite
    (Prod.fst : List (Particle V) × WithBot ℚ × ℚ → List (Particle V))]
  rw [apply_ite List.length]
  simp

theorem fribbleLoop_length {V : Type} (env : SmcEnv V)
    (start : List (Particle V)) (t : ℕ) (θ : ℚ) :
    ∀ (fuel pass : ℕ) (acc : List (Particle V)) (gmax : WithBot ℚ),
      ∃ k, 1 ≤ k ∧
        (fribbleLoop env start t θ (fuel + 1) pass acc gmax).1.length =
          acc.length + k * start.length := by
  intro fuel
  induction fuel with
  | zero =>
    intro pass acc gmax
    refine ⟨1, le_refl 1, ?_⟩
    rw [fribbleLoop]
    split_ifs with hc
    · rw [fribbleLoop]
      dsimp only
      rw [fribbleStep_length]
      ring
    · dsimp only
      rw [fribbleStep_length]
      ring
  | succ fuel ih =>
    intro pass acc gmax
    rw [fribbleLoop]
    split_ifs with hc
    · obtain ⟨k, hk1, hk2⟩ := ih (pass + 1)
        (fribbleStep env start t pass acc gmax).1
        (fribbleStep env start t pass acc gmax).2.1
      refine ⟨k + 1, by omega, ?_⟩
      dsimp only
      rw [hk2, fribbleStep_length]
      ring
    · refine ⟨1, le_refl 1, ?_⟩
      dsimp only
      rw [fribbleStep_length]
      ring

theorem iterateEssVariable_particles_length {V : Type} [Inhabited V]
    (env : SmcEnv V) (fuel : ℕ) (s : SamplerState V)
    (hlen : s.particles.length = s.N) :
    (IterateEssVariable env fuel s).1.particles.length = s.N := by
  unfold IterateEssVariable
  dsimp only
  have hs0 : (if s.htHistoryMode = HistoryType.none then s
      else pushHistory s).particles = s.particles := by
    split_ifs <;> rfl
  rw [hs0]
  rw [apply_ite (Prod.fst : List (Particle V) × ℕ → List (Particle V))]
  dsimp only
  obtain ⟨k, hk1, hk2⟩ := fribbleLoop_length env s.particles (s.T + 1)
    s.dResampleThreshold fuel 0 ([] : List (Particle V)) ⊥
  split_ifs with hd
  · simp [downsampleTo_length]
  · -- the loop produced k·N ≤ N particles with k ≥ 1, hence exactly N
    push_neg at hd
    simp only [List.length_map, List.length_mapIdx]
    rw [hk2, List.length_nil, Nat.zero_add, hlen] at hd ⊢
    rcases Nat.eq_zero_or_pos s.N with hN | hN
    · rw [hN]
      omega
    · have hk : k ≤ 1 := by
        have := Nat.le_of_mul_le_mul_right (by omega : k * s.N ≤ 1 * s.N) hN
        omega
      have hke : k = 1 := by omega
      rw [hke]
      omega

/-- **C7.** After every completed iteration (`IterateEss`,
sampler.hh:624-676, or `IterateEssVariable`, sampler.hh:523-622, starting
from a well-formed population of size `N`), the population size equals `N`
and the time index `T` has advanced by exactly 1; `T` is 0 immediately
after `Initialise` (sampler.hh:308-323). -/
theorem c7_iteration_shape {V : Type} [Inhabited V] (env : SmcEnv V)
    (fuel : ℕ) (s : SamplerState V) (hlen : s.particles.length = s.N) :
    ((IterateEss env fuel s).1.particles.length = s.N ∧
      (IterateEss env fuel s).1.T = s.T + 1) ∧
    ((IterateEssVariable env fuel s).1.particles.length = s.N ∧
      (IterateEssVariable env fuel s).1.T = s.T + 1) ∧
    (Initialise env s).T = 0 := by
  refine ⟨⟨?_, ?_⟩, ⟨iterateEssVariable_particles_length env fuel s hlen, ?_⟩, ?_⟩
  · rw [IterateEss]
    split_ifs with h
    · exact iterateEssCore_particles_length env fuel s hlen
    · exact iterateEssCore_particles_length env fuel (pushHistory s) hlen
  · rw [IterateEss]
    split_ifs with h
    · exact (iterateEssCore_fields env fuel s).2.2.2
    · exact (iterateEssCore_fields env fuel (pushHistory s)).2.2.2
  · rw [IterateEssVariable]
  · rw [Initialise]
    split_ifs <;> rfl

/-- Witness for C7 at a concrete single-particle sampler. -/
theorem c7_iteration_shape_witness :
    (mkSampler ℕ 1 HistoryType.none).particles.length =
      (mkSampler ℕ 1 HistoryType.none).N ∧
    (IterateEss envW 0 (mkSampler ℕ 1 HistoryType.none)).1.particles.length =
      (mkSampler ℕ 1 HistoryType.none).N := by
  have hlen : (mkSampler ℕ 1 HistoryType.none).particles.length =
      (mkSampler ℕ 1 HistoryType.none).N := by
    simp [mkSampler]
  exact ⟨hlen,
    (c7_iteration_shape envW 0 (mkSampler ℕ 1 HistoryType.none) hlen).1.1⟩

theorem addW_lt_addW_iff (a b : WithBot ℚ) (δ : ℚ) :
    addW a ((δ : ℚ) : WithBot ℚ) < addW b ((δ : ℚ) : WithBot ℚ) ↔ a < b := by
  induction a using WithBot.recBotCoe with
  | bot =>
    induction b using WithBot.recBotCoe with
    | bot => exact Iff.rfl
    | coe q => exact iff_of_true (WithBot.bot_lt_coe _) (WithBot.bot_lt_coe _)
  | coe p =>
    induction b using WithBot.recBotCoe with
    | bot => exact iff_of_false not_lt_bot not_lt_bot
    | coe q =>
      show ((p + δ : ℚ) : WithBot ℚ) < ((q + δ : ℚ) : WithBot ℚ) ↔
        ((p : ℚ) : WithBot ℚ) < ((q : ℚ) : WithBot ℚ)
      rw [WithBot.coe_lt_coe, WithBot.coe_lt_coe]
      exact add_lt_add_iff_right δ

theorem addW_strictMono (δ : ℚ) :
    StrictMono (fun w : WithBot ℚ => addW w ((δ : ℚ) : WithBot ℚ)) :=
  fun a b h => (addW_lt_addW_iff a b δ).mpr h

theorem wmax_addW (a b : WithBot ℚ) (δ : ℚ) :
    wmax (addW a ((δ : ℚ) : WithBot ℚ)) (addW b ((δ : ℚ) : WithBot ℚ)) =
      addW (wmax a b) ((δ : ℚ) : WithBot ℚ) := by
  rw [wmax_eq_max, wmax_eq_max]
  exact ((addW_strictMono δ).monotone.map_max).symm

theorem foldl_lw_shift {V : Type} (δ : ℚ) :
    ∀ (ps : List (Particle V)) (init : WithBot ℚ),
      (ps.map (fun p => { p with lw := addW p.lw ((δ : ℚ) : WithBot ℚ) })).foldl
          (fun acc q => wmax acc q.lw) (addW init ((δ : ℚ) : WithBot ℚ)) =
        addW (ps.foldl (fun acc q => wmax acc q.lw) init) ((δ : ℚ) : WithBot ℚ) := by
  intro ps
  induction ps with
  | nil => intro init; rfl
  | cons p ps ih =>
    intro init
    simp only [List.map_cons, List.foldl_cons]
    rw [wmax_addW]
    exact ih (wmax init p.lw)

/-- Adding a finite increment `δ` to every log-weight shifts the population
maximum by `δ` (the rescaling discipline of sampler.hh:562-572). -/
theorem maxLw_shift {V : Type} (ps : List (Particle V)) (δ : ℚ) :
    maxLw (ps.map (fun p => { p with lw := addW p.lw ((δ : ℚ) : WithBot ℚ) })) =
      addW (maxLw ps) ((δ : ℚ) : WithBot ℚ) :=
  foldl_lw_shift δ ps ⊥

theorem foldl_lw_from_init {V : Type} :
    ∀ (ps : List (Particle V)) (init : WithBot ℚ),
      ps.foldl (fun acc q => wmax acc q.lw) init = max init (maxLw ps) := by
  intro ps
  induction ps with
  | nil =>
    intro init
    rw [maxLw]
    simp only [List.foldl_nil]
    exact (max_eq_left bot_le).symm
  | cons p ps ih =>
    intro init
    have h1 : maxLw (p :: ps) = max p.lw (maxLw ps) := by
      rw [maxLw]
      simp only [List.foldl_cons]
      rw [ih (wmax ⊥ p.lw), wmax_eq_max, max_eq_right bot_le]
    simp only [List.foldl_cons]
    rw [ih (wmax init p.lw), wmax_eq_max, h1, max_assoc]

theorem maxLw_append {V : Type} (a b : List (Particle V)) :
    maxLw (a ++ b) = max (maxLw a) (maxLw b) := by
  rw [maxLw, List.foldl_append]
  exact foldl_lw_from_init b (a.foldl (fun acc q => wmax acc q.lw) ⊥)

/-- The rescaling invariant of one batch pass (sampler.hh:542-575): if the
accumulated population is empty, or has maximum log-weight 0 with a finite
global maximum, and the incoming batch holds at least one finite log-weight,
then after the rescale-and-append the accumulated population again has
maximum log-weight 0 and the global maximum is finite. -/
theorem fribbleStep_max_inv {V : Type} (env : SmcEnv V)
    (start : List (Particle V)) (t pass : ℕ) (acc : List (Particle V))
    (gmax : WithBot ℚ)
    (hacc : acc = [] ∨ (maxLw acc = ((0 : ℚ) : WithBot ℚ) ∧
      ∃ g : ℚ, gmax = ((g : ℚ) : WithBot ℚ)))
    (hbatch : maxLw (start.mapIdx (fun i p => env.DoMove t pass i p)) ≠ ⊥) :
    maxLw (fribbleStep env start t pass acc gmax).1 = ((0 : ℚ) : WithBot ℚ) ∧
      ∃ g' : ℚ,
        (fribbleStep env start t pass acc gmax).2.1 = ((g' : ℚ) : WithBot ℚ) := by
  obtain ⟨l, hl⟩ := WithBot.ne_bot_iff_exists.mp hbatch
  unfold fribbleStep
  dsimp only
  rw [← hl]
  rcases hacc with rfl | ⟨hmax, g, rfl⟩
  · rw [if_pos (by simp : ([] : List (Particle V)).isEmpty = true)]
    rw [if_neg (lt_irrefl _)]
    dsimp only
    refine ⟨?_, l, rfl⟩
    rw [List.nil_append]
    have hng : negW ((l : ℚ) : WithBot ℚ) = ((-l : ℚ) : WithBot ℚ) := rfl
    rw [hng, maxLw_shift, ← hl]
    show ((l + -l : ℚ) : WithBot ℚ) = ((0 : ℚ) : WithBot ℚ)
    exact WithBot.coe_inj.mpr (by ring)
  · cases acc with
    | nil =>
      exfalso
      rw [maxLw] at hmax
      simp only [List.foldl_nil] at hmax
      exact WithBot.bot_ne_coe hmax
    | cons a as =>
      rw [if_neg (by simp : ¬((a :: as).isEmpty = true))]
      by_cases hgl : ((g : ℚ) : WithBot ℚ) < ((l : ℚ) : WithBot ℚ)
      · rw [if_pos hgl]
        dsimp only
        refine ⟨?_, l, rfl⟩
        have hws : wsub ((g : ℚ) : WithBot ℚ) ((l : ℚ) : WithBot ℚ) =
            ((g - l : ℚ) : WithBot ℚ) := rfl
        have hng : negW ((l : ℚ) : WithBot ℚ) = ((-l : ℚ) : WithBot ℚ) := rfl
        rw [maxLw_append, hws, hng, maxLw_shift, maxLw_shift, hmax, ← hl]
        have h1 : addW ((0 : ℚ) : WithBot ℚ) ((g - l : ℚ) : WithBot ℚ) =
            ((g - l : ℚ) : WithBot ℚ) := by
          show ((0 + (g - l) : ℚ) : WithBot ℚ) = _
          exact WithBot.coe_inj.mpr (by ring)
        have h2 : addW ((l : ℚ) : WithBot ℚ) ((-l : ℚ) : WithBot ℚ) =
            ((0 : ℚ) : WithBot ℚ) := by
          show ((l + -l : ℚ) : WithBot ℚ) = _
          exact WithBot.coe_inj.mpr (by ring)
        rw [h1, h2]
        refine max_eq_right ?_
        rw [WithBot.coe_le_coe]
        have := WithBot.coe_lt_coe.mp hgl
        linarith
      · rw [if_neg hgl]
        dsimp only
        refine ⟨?_, g, rfl⟩
        have hng : negW ((g : ℚ) : WithBot ℚ) = ((-g : ℚ) : WithBot ℚ) := rfl
        rw [maxLw_append, hng, maxLw_shift, hmax, ← hl]
        have h2 : addW ((l : ℚ) : WithBot ℚ) ((-g : ℚ) : WithBot ℚ) =
            ((l + -g : ℚ) : WithBot ℚ) := rfl
        rw [h2]
        refine max_eq_left ?_
        rw [WithBot.coe_le_coe]
        have := WithBot.coe_le_coe.mp (not_lt.mp hgl)
        linarith

/-- Iterating `fribbleStep` from any state satisfying the rescaling
invariant keeps the accumulated maximum log-weight at 0, for every fuel
bound on the do-while loop (sampler.hh:542-583). -/
theorem fribbleLoop_max_inv {V : Type} (env : SmcEnv V)
    (start : List (Particle V)) (t : ℕ) (θ : ℚ)
    (hbatch : ∀ pass,
      maxLw (start.mapIdx (fun i p => env.DoMove t pass i p)) ≠ ⊥) :
    ∀ (fuel pass : ℕ) (acc : List (Particle V)) (gmax : WithBot ℚ),
      (acc = [] ∨ (maxLw acc = ((0 : ℚ) : WithBot ℚ) ∧
        ∃ g : ℚ, gmax = ((g : ℚ) : WithBot ℚ))) →
      maxLw (fribbleLoop env start t θ (fuel + 1) pass acc gmax).1 =
        ((0 : ℚ) : WithBot ℚ) := by
  intro fuel
  induction fuel with
  | zero =>
    intro pass acc gmax hacc
    obtain ⟨h1, g', hg⟩ := fribbleStep_max_inv env start t pass acc gmax hacc
      (hbatch pass)
    rw [fribbleLoop]
    split_ifs with hc
    · rw [fribbleLoop]
      exact h1
    · exact h1
  | succ fuel ih =>
    intro pass acc gmax hacc
    obtain ⟨h1, g', hg⟩ := fribbleStep_max_inv env start t pass acc gmax hacc
      (hbatch pass)
    rw [fribbleLoop]
    split_ifs with hc
    · exact ih (pass + 1) _ _ (Or.inr ⟨h1, g', hg⟩)
    · exact h1

/-- **C9.** In the fribble batch loop of `IterateEssVariable`
(sampler.hh:542-583), assuming each moved batch contains at least one
finite log-weight: (a) every rescale-and-append pass started from an
accumulated population with maximum log-weight 0 (or from the initial empty
population) again yields maximum log-weight 0 and a finite global maximum,
and (b) the population produced by the whole batch loop, run as
`IterateEssVariable` runs it from the empty accumulator, has maximum
log-weight 0 — for every fuel bound and starting pass. -/
theorem c9_fribble_max_zero {V : Type} (env : SmcEnv V)
    (start : List (Particle V)) (t : ℕ) (θ : ℚ)
    (hbatch : ∀ pass,
      maxLw (start.mapIdx (fun i p => env.DoMove t pass i p)) ≠ ⊥) :
    (∀ (pass : ℕ) (acc : List (Particle V)) (gmax : WithBot ℚ),
      (acc = [] ∨ (maxLw acc = ((0 : ℚ) : WithBot ℚ) ∧
        ∃ g : ℚ, gmax = ((g : ℚ) : WithBot ℚ))) →
      maxLw (fribbleStep env start t pass acc gmax).1 = ((0 : ℚ) : WithBot ℚ) ∧
        ∃ g' : ℚ,
          (fribbleStep env start t pass acc gmax).2.1 =
            ((g' : ℚ) : WithBot ℚ)) ∧
    ∀ (fuel pass : ℕ),
      maxLw (fribbleLoop env start t θ (fuel + 1) pass [] ⊥).1 =
        ((0 : ℚ) : WithBot ℚ) :=
  ⟨fun pass acc gmax hacc =>
      fribbleStep_max_inv env start t pass acc gmax hacc (hbatch pass),
   fun fuel pass =>
      fribbleLoop_max_inv env start t θ hbatch fuel pass [] ⊥ (Or.inl rfl)⟩

/-- Witness for C9 on a concrete one-particle batch with log-weight 0. -/
theorem c9_fribble_max_zero_witness :
    maxLw (fribbleLoop envW [⟨0, ((0 : ℚ) : WithBot ℚ)⟩] 1 1 1 0 [] ⊥).1 =
      ((0 : ℚ) : WithBot ℚ) := by
  have hbatch : ∀ pass,
      maxLw (([(⟨0, ((0 : ℚ) : WithBot ℚ)⟩ : Particle ℕ)]).mapIdx
        (fun i p => envW.DoMove 1 pass i p)) ≠ ⊥ := by
    intro pass
    have hm : (([(⟨0, ((0 : ℚ) : WithBot ℚ)⟩ : Particle ℕ)]).mapIdx
        (fun i p => envW.DoMove 1 pass i p)) =
        [(⟨0, ((0 : ℚ) : WithBot ℚ)⟩ : Particle ℕ)] := rfl
    rw [hm, maxLw]
    simp only [List.foldl_cons, List.foldl_nil]
    rw [wmax_lt_eq (WithBot.bot_lt_coe 0)]
    exact WithBot.coe_ne_bot
  exact (c9_fribble_max_zero envW [⟨0, ((0 : ℚ) : WithBot ℚ)⟩] 1 1 hbatch).2 0 0

end Smctc
